import Mathlib

/-!
Verification of the Louvain community-detection engine in `src/louvain.hxx`
(`louvain-openmp-adjust-schedule`).  The serial routines are embedded
shallowly: `vector<T>` becomes `List`, machine doubles become `ℚ` (all the
concrete inputs used below make the double arithmetic exact), and each
`louvain*W` routine becomes a pure function returning its updated buffers.
Helper routines of the repository that live outside `src/`
(`deltaModularity` from `modularity.hxx`, `exclusiveScanW` from `_main.hxx`,
the CSR primitives from `csr.hxx`, `edgeWeight` from `properties.hxx`) are
modelled from the specification, as noted on their doc comments.
-/

/-- Edge and accumulator weights (`LOUVAIN_WEIGHT_TYPE double` in the source). -/
abbrev W : Type := ℚ

/-! ### List access helpers -/

/-- Reading a list at an index distinct from the one just written is unchanged. -/
theorem getD_set_other {α : Type} (l : List α) (i j : Nat) (a d : α) (h : i ≠ j) :
    (l.set i a).getD j d = l.getD j d := by
  induction l generalizing i j with
  | nil => simp
  | cons x xs ih =>
    cases i with
    | zero =>
      cases j with
      | zero => exact absurd rfl h
      | succ j => simp [List.getD, List.set]
    | succ i =>
      cases j with
      | zero => simp [List.getD, List.set]
      | succ j =>
        simp only [List.set, List.getD_cons_succ]
        exact ih i j (fun he => h (by rw [he]))

/-- Reading the list at the index just written yields the new value. -/
theorem getD_set_same {α : Type} (l : List α) (i : Nat) (a d : α) (h : i < l.length) :
    (l.set i a).getD i d = a := by
  induction l generalizing i with
  | nil => simp at h
  | cons x xs ih =>
    cases i with
    | zero => simp [List.getD, List.set]
    | succ i =>
      simp only [List.set, List.getD_cons_succ]
      exact ih i (by simpa using h)

/-- Writing with `set` at an out-of-range index is a no-op. -/
theorem set_oob {α : Type} (l : List α) (i : Nat) (a : α) (h : l.length ≤ i) :
    l.set i a = l := by
  induction l generalizing i with
  | nil => rfl
  | cons x xs ih =>
    cases i with
    | zero => simp at h
    | succ i =>
      simp only [List.set]
      rw [ih i (by simpa using h)]

/-- Reading with `getD` at an out-of-range index yields the default. -/
theorem getD_oob {α : Type} (l : List α) (i : Nat) (d : α) (h : l.length ≤ i) :
    l.getD i d = d := by
  induction l generalizing i with
  | nil => simp [List.getD]
  | cons x xs ih =>
    cases i with
    | zero => simp at h
    | succ i =>
      simp only [List.getD_cons_succ]
      exact ih i (by simpa using h)

/-- Every entry of a replicated list reads as the replicated value. -/
theorem getD_replicate {α : Type} (n i : Nat) (a : α) :
    (List.replicate n a).getD i a = a := by
  induction n generalizing i with
  | zero => simp [List.getD]
  | succ n ih =>
    cases i with
    | zero => simp [List.getD]
    | succ i => simp [List.replicate, List.getD_cons_succ, ih i]

/-! ### The graph model

The graph interface of §3 (`span`, `hasVertex`, `forEachVertexKey`,
`forEachEdge`) is embedded as a vector of adjacency rows: vertex `u`'s
out-edges, in iteration order, are `adj.getD u []`.  Every index below
`span` is a present vertex (`order = span`), which covers both the concrete
input graphs used here and the `DiGraphCsr` graphs produced by aggregation. -/

structure EGraph : Type where
  adj : List (List (Nat × W))

/-- Source `span(G)`: the array length used for per-vertex state. -/
def EGraph.span (x : EGraph) : Nat := x.adj.length

/-- Out-edges of `u` in iteration order (`forEachEdge`). -/
def EGraph.edges (x : EGraph) (u : Nat) : List (Nat × W) := x.adj.getD u []

/-- Modelled from the spec: `edgeWeight(G) = Σ w(u,v)` lives in
`properties.hxx`, outside `src/` (§6.3). -/
def edgeWeight (x : EGraph) : W :=
  ((List.range x.span).map (fun u => ((x.edges u).map (fun p => p.2)).sum)).sum

/-- Symmetry of weights (§3): `w(u,v) = w(v,u)` for vertices `u`, `v`,
counting multiplicity as the total weight between the ordered pair. -/
def EGraph.symmetricW (x : EGraph) : Prop :=
  ∀ u < x.span, ∀ v < x.span,
    (((x.edges u).filter (fun p => p.1 = v)).map (fun p => p.2)).sum =
    (((x.edges v).filter (fun p => p.1 = u)).map (fun p => p.2)).sum

/-! ### Scratch hashtable: scan and clear (`louvain.hxx` lines 247-280) -/

/-- Source `louvainScanCommunityW` (lines 247-253): accumulate edge `(u,v,w)` into the
scratch pair `(vcs, vcout)`; with `SELF = false` a self-edge is skipped. -/
def louvainScanCommunityW (SELF : Bool) (vcs : List Nat) (vcout : List W)
    (u v : Nat) (w : W) (vcom : List Nat) : List Nat × List W :=
  if !SELF ∧ u = v then (vcs, vcout) else
  ((if vcout.getD (vcom.getD v 0) 0 = 0 then vcs ++ [vcom.getD v 0] else vcs),
    vcout.set (vcom.getD v 0) (vcout.getD (vcom.getD v 0) 0 + w))

/-- Source `louvainScanCommunitiesW` (lines 264-267): scan all out-edges of `u`. -/
def louvainScanCommunitiesW (SELF : Bool) (vcs : List Nat) (vcout : List W)
    (x : EGraph) (u : Nat) (vcom : List Nat) : List Nat × List W :=
  (x.edges u).foldl
    (fun p e => louvainScanCommunityW SELF p.1 p.2 u e.1 e.2 vcom) (vcs, vcout)

/-- Source `louvainClearScanW` (lines 275-280): zero `vcout` at every member of `vcs`,
then empty `vcs`. -/
def louvainClearScanW (vcs : List Nat) (vcout : List W) : List Nat × List W :=
  ([], vcs.foldl (fun a c => a.set c 0) vcout)

/-! ### Scorer and move (`louvain.hxx` lines 296-336) -/

/-- Modelled from the spec: `deltaModularity` lives in `modularity.hxx`,
outside `src/`.  Per §6.3 it is the standard Louvain gain for moving `u`
from community `d` to `c` at resolution `R`:
`(w_uc - w_ud)/M - R·vtot_u·(ctot_c - ctot_d + vtot_u)/(2M²)`. -/
def deltaModularity (vcoutC vcoutD vtotU ctotC ctotD M R : W) : W :=
  (vcoutC - vcoutD) / M - R * (vtotU * (ctotC - ctotD + vtotU)) / (2 * M * M)

/-- Source `louvainChooseCommunity` (lines 296-306): best strictly-improving candidate
in `vcs` order, starting from the sentinel `(K(), W()) = (0, 0)`. -/
def louvainChooseCommunity (SELF : Bool) (u : Nat) (vcom : List Nat)
    (vtot ctot : List W) (vcs : List Nat) (vcout : List W) (M R : W) : Nat × W :=
  let d := vcom.getD u 0
  vcs.foldl
    (fun p c =>
      if !SELF ∧ c = d then p else
      let e := deltaModularity (vcout.getD c 0) (vcout.getD d 0) (vtot.getD u 0)
        (ctot.getD c 0) (ctot.getD d 0) M R
      if p.2 < e then (c, e) else p)
    (0, 0)

/-- Source `louvainChangeCommunityW` (lines 318-324): move `u` from its community `d`
to `c`, updating `ctot` at `d` and `c` and `vcom` at `u`. -/
def louvainChangeCommunityW (vcom : List Nat) (ctot : List W) (u c : Nat)
    (vtot : List W) : List Nat × List W :=
  let d := vcom.getD u 0
  let ctot1 := ctot.set d (ctot.getD d 0 - vtot.getD u 0)
  let ctot2 := ctot1.set c (ctot1.getD c 0 + vtot.getD u 0)
  (vcom.set u c, ctot2)

/-! ### Local-moving phase (`louvain.hxx` lines 359-377) -/

/-- The mutable per-level state threaded through `louvainMoveW`. -/
structure MoveState : Type where
  vcom : List Nat
  ctot : List W
  vaff : List Bool
  vcs : List Nat
  vcout : List W

/-- The per-vertex body of `louvainMoveW` (lines 365-373): skip unaffected
vertices; clear and refill the scratch; pick the best community; on `if (c)`
(that is, `c ≠ 0`) perform the move and mark all neighbours affected; clear
`vaff[u]`; accumulate `el += e`. -/
def louvainMoveBody (x : EGraph) (vtot : List W) (M R : W)
    (st : MoveState) (el : W) (u : Nat) : MoveState × W :=
  if st.vaff.getD u false = false then (st, el) else
  let s1 := louvainClearScanW st.vcs st.vcout
  let s2 := louvainScanCommunitiesW false s1.1 s1.2 x u st.vcom
  let ce := louvainChooseCommunity false u st.vcom vtot st.ctot s2.1 s2.2 M R
  let vc :=
    if ce.1 ≠ 0 then louvainChangeCommunityW st.vcom st.ctot u ce.1 vtot
    else (st.vcom, st.ctot)
  let vaff1 :=
    if ce.1 ≠ 0 then (x.edges u).foldl (fun va e => va.set e.1 true) st.vaff
    else st.vaff
  let vaff2 := vaff1.set u false
  (⟨vc.1, vc.2, vaff2, s2.1, s2.2⟩, el + ce.2)

/-- One iteration of the `for` loop in `louvainMoveW`: reset `el`, sweep all
vertex keys. -/
def louvainMoveIter (x : EGraph) (vtot : List W) (M R : W)
    (st : MoveState) : MoveState × W :=
  (List.range x.span).foldl
    (fun p u => louvainMoveBody x vtot M R p.1 p.2 u) (st, 0)

/-- The `for (; l<L;)` loop of `louvainMoveW`, in fuel form (the fuel is the
number of remaining iterations `L - l`): run one sweep, call `fc(el, l++)`,
stop on convergence.  Returns the state, the final `l` and the final `el`. -/
def louvainMoveLoop (x : EGraph) (vtot : List W) (M R : W) (fc : W → Nat → Bool) :
    Nat → MoveState → Nat → W → MoveState × Nat × W
  | 0, st, l, el => (st, l, el)
  | fuel + 1, st, l, el =>
    let _ := el
    let p := louvainMoveIter x vtot M R st
    if fc p.2 l then (p.1, l + 1, p.2)
    else louvainMoveLoop x vtot M R fc fuel p.1 (l + 1) p.2

/-- Source `louvainMoveW` (lines 359-377): the local-moving phase; the result
`l>1 || el ? l : 0` reports `0` when the first iteration already converged
with zero energy. -/
def louvainMoveW (st : MoveState) (x : EGraph) (vtot : List W) (M R : W)
    (L : Nat) (fc : W → Nat → Bool) : MoveState × Nat :=
  let r := louvainMoveLoop x vtot M R fc L st 0 0
  (r.1, if 1 < r.2.1 ∨ r.2.2 ≠ 0 then r.2.1 else 0)

/-! ### Community properties (`louvain.hxx` lines 418-536) -/

/-- Source `louvainCommunityExistsW` (lines 418-428): flag array over communities
(zeroed first) plus the count of distinct communities among the vertices.
`flagLen` is the length of the flag buffer (`cv.degrees` in the driver). -/
def louvainCommunityExistsW (flagLen : Nat) (x : EGraph) (vcom : List Nat) :
    List Nat × Nat :=
  (List.range x.span).foldl
    (fun (p : List Nat × Nat) u =>
      let c := vcom.getD u 0
      let C := if p.1.getD c 0 = 0 then p.2 + 1 else p.2
      (p.1.set c 1, C))
    (List.replicate flagLen 0, 0)

/-- Source `louvainCountCommunityVerticesW` (lines 491-498) over a zeroed buffer of
length `C + 1`. -/
def louvainCountCommunityVerticesW (C : Nat) (x : EGraph) (vcom : List Nat) :
    List Nat :=
  (List.range x.span).foldl
    (fun a u => let c := vcom.getD u 0; a.set c (a.getD c 0 + 1))
    (List.replicate (C + 1) 0)

/-- Modelled from the spec: `exclusiveScanW(a, a)` lives in `_main.hxx`,
outside `src/`.  Per §4.5 it computes the exclusive prefix sum in place and
returns the total. -/
def exclusiveScanW (a : List Nat) : List Nat × Nat :=
  a.foldl (fun (p : List Nat × Nat) v => (p.1 ++ [p.2], p.2 + v)) ([], 0)

/-- Source `louvainCommunityVerticesW` (lines 526-536): offsets are the exclusive
scan of the per-community counts with `coff[C]` set to the total; vertices
are then scattered into `cedg` via `csrAddEdgeU` (modelled from the spec,
`csr.hxx` being outside `src/`: `cedg[coff[c] + cdeg[c]++] = u`).
Returns `(coff, cdeg, cedg)`; `cedg` starts as a zeroed buffer of length
`span` (`cv.edgeKeys`). -/
def louvainCommunityVerticesW (C : Nat) (x : EGraph) (vcom : List Nat) :
    List Nat × List Nat × List Nat :=
  let counts := louvainCountCommunityVerticesW C x vcom
  let sc := exclusiveScanW counts
  let coff := sc.1.set C sc.2
  (List.range x.span).foldl
    (fun (p : List Nat × List Nat × List Nat) u =>
      let c := vcom.getD u 0
      let k := p.2.1.getD c 0
      (p.1, p.2.1.set c (k + 1), p.2.2.set (p.1.getD c 0 + k) u))
    (coff, List.replicate (C + 1) 0, List.replicate x.span 0)

/-- Source `louvainLookupCommunitiesU` (lines 566-570): `a[v] ← vcom[a[v]]` for every
entry of `a`. -/
def louvainLookupCommunitiesU (a : List Nat) (vcom : List Nat) : List Nat :=
  a.map (fun v => vcom.getD v 0)

/-- Source `louvainRenumberCommunitiesW` (lines 645-650): exclusive-scan the
existence flags in place, rewrite `vcom` through them, return the number of
communities. -/
def louvainRenumberCommunitiesW (vcom cext : List Nat) : List Nat × List Nat × Nat :=
  let sc := exclusiveScanW cext
  (louvainLookupCommunitiesU vcom sc.1, sc.1, sc.2)

/-! ### Aggregation (`louvain.hxx` lines 601-615 and 675-681) -/

/-- The community-`c` slice `cedg[coff[c] .. coff[c+1])` of the CSR
(`csrForEachEdgeKey`, modelled from the spec since `csr.hxx` is outside
`src/`). -/
def csrSlice (coff cedg : List Nat) (c : Nat) : List Nat :=
  (cedg.drop (coff.getD c 0)).take (coff.getD (c + 1) 0 - coff.getD c 0)

/-- Source `louvainAggregateEdgesW` (lines 601-615): for each community `c` with a
nonempty bucket, clear the scratch, scan every member's out-edges with
`SELF = true`, then emit one edge `(c, d, vcout[d])` per `d ∈ vcs`.  The
emitted edges of community `c` form row `c` of the next-level graph (the
CSR offset bookkeeping `yoff`/`ydeg` of the source is layout only and is
represented by the row structure).  The scratch pair is threaded through, as
in the source. -/
def louvainAggregateEdgesW (C : Nat) (x : EGraph) (vcom coff cedg : List Nat)
    (vcs : List Nat) (vcout : List W) :
    List (List (Nat × W)) × List Nat × List W :=
  (List.range C).foldl
    (fun (acc : List (List (Nat × W)) × List Nat × List W) c =>
      let members := csrSlice coff cedg c
      if members.length = 0 then (acc.1 ++ [[]], acc.2.1, acc.2.2)
      else
        let s1 := louvainClearScanW acc.2.1 acc.2.2
        let s2 := members.foldl
          (fun p u => louvainScanCommunitiesW true p.1 p.2 x u vcom) s1
        (acc.1 ++ [s2.1.map (fun d => (d, s2.2.getD d 0))], s2.1, s2.2))
    ([], vcs, vcout)

/-- Source `louvainAggregateW` (lines 675-681): the next-level graph built from the
aggregated edges (offsets being layout only), plus the threaded scratch. -/
def louvainAggregateW (C : Nat) (x : EGraph) (vcom coff cedg : List Nat)
    (vcs : List Nat) (vcout : List W) : EGraph × List Nat × List W :=
  let r := louvainAggregateEdgesW C x vcom coff cedg vcs vcout
  (⟨r.1⟩, r.2.1, r.2.2)

/-! ### Vertex-weight and community initialisation (`louvain.hxx` 119-229) -/

/-- Source `louvainVertexWeightsW` (lines 119-125) applied to a zeroed buffer of
length `S`: `vtot[u] = Σ_{(v,w) ∈ edges(u)} w` for `u < span`, `0` beyond. -/
def louvainVertexWeightsW (S : Nat) (x : EGraph) : List W :=
  (List.range x.span).foldl
    (fun vt u => vt.set u (vt.getD u 0 + ((x.edges u).map (fun p => p.2)).sum))
    (List.replicate S 0)

/-- Source `louvainInitializeW` (lines 178-184): singleton communities,
`vcom[u] = u` and `ctot[u] = vtot[u]` for every vertex of `x`, applied to
zeroed buffers of length `S`. -/
def louvainInitializeW (S : Nat) (x : EGraph) (vtot : List W) :
    List Nat × List W :=
  (List.range x.span).foldl
    (fun (p : List Nat × List W) u =>
      (p.1.set u u, p.2.set u (vtot.getD u 0)))
    (List.replicate S 0, List.replicate S 0)

/-- Source `louvainInitializeFromW` (lines 208-215): communities from a given
partition `q`, accumulating `ctot[q[u]] += vtot[u]`, applied to zeroed
buffers of length `S`. -/
def louvainInitializeFromW (S : Nat) (x : EGraph) (vtot : List W)
    (q : List Nat) : List Nat × List W :=
  (List.range x.span).foldl
    (fun (p : List Nat × List W) u =>
      (p.1.set u (q.getD u 0),
        p.2.set (q.getD u 0) (p.2.getD (q.getD u 0) 0 + vtot.getD u 0)))
    (List.replicate S 0, List.replicate S 0)

/-! ### Pass driver (`louvain.hxx` lines 707-780 and 875-879) -/

/-- Source `LouvainOptions` (lines 30-41), with the defaults of the constructor
(`repeat` drives only the benchmarking loop and is omitted; the timing
fields of `LouvainResult` are likewise omitted). -/
structure LouvainOptions : Type where
  resolution : W := 1
  tolerance : W := 1 / 100
  aggregationTolerance : W := 8 / 10
  toleranceDecline : W := 100
  maxIterations : Nat := 20
  maxPasses : Nat := 10

/-- Ghost record of one executed pass: the local-mover's return value `m`,
the community assignment right after the move (when `a` is composed), and
the renumbering map `cext` when this pass went on to aggregate. -/
structure PassRecord : Type where
  m : Nat
  vcomAfterMove : List Nat
  renum : Option (List Nat)

/-- The full driver state threaded across passes of `louvainSeq`. -/
structure SeqState : Type where
  g : EGraph
  vcom : List Nat
  vtot : List W
  ctot : List W
  vaff : List Bool
  a : List Nat
  vcs : List Nat
  vcout : List W
  E : W
  l : Nat
  p : Nat

/-- The `for (l=0, p=0; M>0 && p<P;)` loop of `louvainSeq` (lines 739-774),
in fuel form, also returning the ghost trace of executed passes.  Each
round: local move on the current graph (`x` on the first pass, the
aggregated `y` afterwards); compose `a` (copy on the first pass, tree
lookup later); `l += max(m,1); ++p`; stop on `m<=1 || p>=P` or on the
aggregation-tolerance test; otherwise renumber, build community buckets,
aggregate, reset state to singletons on `y`, and tighten `E`. -/
def louvainSeqLoop (S : Nat) (o : LouvainOptions) (M : W) :
    Nat → SeqState → SeqState × List PassRecord
  | 0, st => (st, [])
  | fuel + 1, st =>
    if ¬(0 < M ∧ st.p < o.maxPasses) then (st, []) else
    let isFirst := st.p = 0
    let mv := louvainMoveW ⟨st.vcom, st.ctot, st.vaff, st.vcs, st.vcout⟩
      st.g st.vtot M o.resolution o.maxIterations
      (fun el _ => decide (el ≤ st.E))
    let ms := mv.1
    let m := mv.2
    let a' := if isFirst then ms.vcom else louvainLookupCommunitiesU st.a ms.vcom
    let l' := st.l + max m 1
    let p' := st.p + 1
    let stopped : SeqState :=
      ⟨st.g, ms.vcom, st.vtot, ms.ctot, ms.vaff, a', ms.vcs, ms.vcout, st.E, l', p'⟩
    if m ≤ 1 ∨ o.maxPasses ≤ p' then (stopped, [⟨m, ms.vcom, none⟩]) else
    let GN := st.g.span
    let ex := louvainCommunityExistsW st.g.span st.g ms.vcom
    let CN := ex.2
    if o.aggregationTolerance ≤ (CN : W) / (GN : W) then
      (stopped, [⟨m, ms.vcom, none⟩])
    else
      let rn := louvainRenumberCommunitiesW ms.vcom ex.1
      let vcomR := rn.1
      let cv := louvainCommunityVerticesW CN st.g vcomR
      let ag := louvainAggregateW CN st.g vcomR cv.1 cv.2.2 ms.vcs ms.vcout
      let y := ag.1
      let vtot' := louvainVertexWeightsW S y
      let ini := louvainInitializeW S y vtot'
      let st' : SeqState :=
        ⟨y, ini.1, vtot', ini.2, List.replicate S true, a', ag.2.1, ag.2.2,
          st.E / o.toleranceDecline, l', p'⟩
      let rec1 := louvainSeqLoop S o M fuel st'
      (rec1.1, ⟨m, ms.vcom, rn.2.1⟩ :: rec1.2)

/-- The result triple of `louvainSeq` that the claims are about:
`membership = a`, `iterations = l`, `passes = p` (lines 49-69 and 779). -/
structure LouvainResult : Type where
  membership : List Nat
  iterations : Nat
  passes : Nat

/-- Source `louvainSeq` (lines 707-780) with its ghost trace: allocate zeroed state
of length `span`, run the preprocessing hook `fm` on `vaff`, compute vertex
weights, initialise communities (from `q` when given, else singletons), and
run the pass loop with `M = edgeWeight(x)/2`. -/
def louvainSeqTrace (x : EGraph) (q : Option (List Nat)) (o : LouvainOptions)
    (fm : List Bool → List Bool) : LouvainResult × List PassRecord :=
  let S := x.span
  let M := edgeWeight x / 2
  let vaff := fm (List.replicate S false)
  let vtot := louvainVertexWeightsW S x
  let ini := match q with
    | some qv => louvainInitializeFromW S x vtot qv
    | none => louvainInitializeW S x vtot
  let st0 : SeqState :=
    ⟨x, ini.1, vtot, ini.2, vaff, List.replicate S 0, [],
      List.replicate S 0, o.tolerance, 0, 0⟩
  let r := louvainSeqLoop S o M o.maxPasses st0
  (⟨r.1.a, r.1.l, r.1.p⟩, r.2)

/-- Source `louvainSeq` (lines 707-780): the returned result. -/
def louvainSeq (x : EGraph) (q : Option (List Nat)) (o : LouvainOptions)
    (fm : List Bool → List Bool) : LouvainResult :=
  (louvainSeqTrace x q o fm).1

/-- Source `louvainStaticSeq` (lines 875-879): the static preprocessing hook marks
every vertex affected. -/
def louvainStaticSeq (x : EGraph) (q : Option (List Nat))
    (o : LouvainOptions) : LouvainResult :=
  louvainSeq x q o (fun va => List.replicate va.length true)

/-! ### Shared facts about `louvainChangeCommunityW` -/

/-- Pointwise description of `louvainChangeCommunityW`: `vcom` changes only at
`u` (to `c`), and `ctot` changes only by subtracting `vtot[u]` at the old
community and adding it at `c`. -/
theorem louvainChangeCommunityW_getD (vcom : List Nat) (ctot vtot : List W)
    (u c : Nat) (hu : u < vcom.length) (hd : vcom.getD u 0 < ctot.length)
    (hc : c < ctot.length) :
    (louvainChangeCommunityW vcom ctot u c vtot).1.getD u 0 = c ∧
    (∀ i, i ≠ u →
      (louvainChangeCommunityW vcom ctot u c vtot).1.getD i 0 = vcom.getD i 0) ∧
    (∀ j, (louvainChangeCommunityW vcom ctot u c vtot).2.getD j 0 =
      ctot.getD j 0 - (if j = vcom.getD u 0 then vtot.getD u 0 else 0)
        + (if j = c then vtot.getD u 0 else 0)) ∧
    (louvainChangeCommunityW vcom ctot u c vtot).1.length = vcom.length ∧
    (louvainChangeCommunityW vcom ctot u c vtot).2.length = ctot.length := by
  simp only [louvainChangeCommunityW]
  refine ⟨getD_set_same vcom u c 0 hu, fun i hi => getD_set_other _ _ _ _ _ hi.symm,
    fun j => ?_, by simp, by simp⟩
  by_cases hjc : j = c
  · subst hjc
    rw [getD_set_same _ _ _ _ (by simpa using hc), if_pos rfl]
    by_cases hjd : j = vcom.getD u 0
    · rw [if_pos hjd, hjd, getD_set_same _ _ _ _ hd]
    · rw [if_neg hjd, getD_set_other _ _ _ _ _ (fun h => hjd h.symm)]
      ring
  · rw [getD_set_other _ _ _ _ _ (fun h => hjc h.symm), if_neg hjc, add_zero]
    by_cases hjd : j = vcom.getD u 0
    · rw [if_pos hjd, hjd, getD_set_same _ _ _ _ hd]
    · rw [if_neg hjd, getD_set_other _ _ _ _ _ (fun h => hjd h.symm), sub_zero]

/-- Claim C10: `louvainChangeCommunityW(vcom, ctot, x, u, c, vtot)`, with `d`
the community of `u` on entry, modifies only `vcom[u]` (set to `c`),
`ctot[d]` (decreased by `vtot[u]`) and `ctot[c]` (increased by `vtot[u]`);
every other entry of `vcom` and of `ctot` is unchanged (and the read-only
`vtot` is not part of the outputs at all). -/
theorem louvainChangeCommunityW_frame (vcom : List Nat) (ctot vtot : List W)
    (u c : Nat) (hu : u < vcom.length) (hd : vcom.getD u 0 < ctot.length)
    (hc : c < ctot.length) :
    (louvainChangeCommunityW vcom ctot u c vtot).1.getD u 0 = c ∧
    (∀ i, i ≠ u →
      (louvainChangeCommunityW vcom ctot u c vtot).1.getD i 0 = vcom.getD i 0) ∧
    (∀ j, j ≠ vcom.getD u 0 → j ≠ c →
      (louvainChangeCommunityW vcom ctot u c vtot).2.getD j 0 = ctot.getD j 0) ∧
    (∀ j, (louvainChangeCommunityW vcom ctot u c vtot).2.getD j 0 =
      ctot.getD j 0 - (if j = vcom.getD u 0 then vtot.getD u 0 else 0)
        + (if j = c then vtot.getD u 0 else 0)) := by
  obtain ⟨h1, h2, h3, _, _⟩ := louvainChangeCommunityW_getD vcom ctot vtot u c hu hd hc
  exact ⟨h1, h2, fun j hjd hjc => by rw [h3 j, if_neg hjd, if_neg hjc, sub_zero, add_zero],
    h3⟩

/-- Witness for claim C10 at a concrete state. -/
theorem louvainChangeCommunityW_frame_witness :
    ((0 : Nat) < ([1, 0] : List Nat).length ∧
      ([1, 0] : List Nat).getD 0 0 < ([5, 7] : List W).length ∧
      (0 : Nat) < ([5, 7] : List W).length) ∧
    ((louvainChangeCommunityW [1, 0] [5, 7] 0 0 [2, 2]).1.getD 0 0 = 0 ∧
      (∀ i, i ≠ 0 →
        (louvainChangeCommunityW [1, 0] [5, 7] 0 0 [2, 2]).1.getD i 0 =
          ([1, 0] : List Nat).getD i 0) ∧
      (∀ j, j ≠ ([1, 0] : List Nat).getD 0 0 → j ≠ 0 →
        (louvainChangeCommunityW [1, 0] [5, 7] 0 0 [2, 2]).2.getD j 0 =
          ([5, 7] : List W).getD j 0) ∧
      (∀ j, (louvainChangeCommunityW [1, 0] [5, 7] 0 0 [2, 2]).2.getD j 0 =
        ([5, 7] : List W).getD j 0
          - (if j = ([1, 0] : List Nat).getD 0 0 then ([2, 2] : List W).getD 0 0 else 0)
          + (if j = 0 then ([2, 2] : List W).getD 0 0 else 0))) :=
  ⟨⟨by decide, by decide, by decide⟩,
    louvainChangeCommunityW_frame [1, 0] [5, 7] [2, 2] 0 0
      (by decide) (by decide) (by decide)⟩

/-! ### The scratch-hashtable invariant and claim C9 -/

/-- Invariant of the scratch pair: every community with a nonzero
accumulator has been recorded in `vcs`. -/
def scanInv (vcs : List Nat) (vcout : List W) : Prop :=
  ∀ c, vcout.getD c 0 ≠ 0 → c ∈ vcs

/-- Writing with `set` and reading back at the same index with the written
value as default always yields the written value, in or out of bounds. -/
theorem getD_set_self_default {α : Type} (l : List α) (i : Nat) (a : α) :
    (l.set i a).getD i a = a := by
  by_cases h : i < l.length
  · exact getD_set_same l i a a h
  · rw [set_oob l i a (Nat.le_of_not_lt h), getD_oob l i a (Nat.le_of_not_lt h)]

/-- One `louvainScanCommunityW` call preserves the scratch invariant. -/
theorem scanInv_scan (SELF : Bool) (vcs : List Nat) (vcout : List W)
    (u v : Nat) (w : W) (vcom : List Nat) (h : scanInv vcs vcout) :
    scanInv (louvainScanCommunityW SELF vcs vcout u v w vcom).1
      (louvainScanCommunityW SELF vcs vcout u v w vcom).2 := by
  intro c0 hc0
  unfold louvainScanCommunityW at hc0 ⊢
  by_cases hskip : !SELF ∧ u = v
  · rw [if_pos hskip] at hc0 ⊢
    exact h c0 hc0
  · rw [if_neg hskip] at hc0 ⊢
    by_cases hcc : c0 = vcom.getD v 0
    · by_cases h0 : vcout.getD (vcom.getD v 0) 0 = 0
      · rw [if_pos h0]
        exact List.mem_append_right _ (by rw [hcc]; exact List.mem_singleton.mpr rfl)
      · rw [if_neg h0]
        exact h c0 (by rw [hcc]; exact h0)
    · rw [getD_set_other _ _ _ _ _ (fun he => hcc he.symm)] at hc0
      by_cases h0 : vcout.getD (vcom.getD v 0) 0 = 0
      · rw [if_pos h0]
        exact List.mem_append_left _ (h c0 hc0)
      · rw [if_neg h0]
        exact h c0 hc0

/-- Arguments of one `scan(u, v, w)` call (§4.1): the `SELF` flag, the vertex,
the edge target and weight, and the community array in force at that time. -/
structure ScanOp : Type where
  SELF : Bool
  u : Nat
  v : Nat
  w : W
  vcom : List Nat

/-- Any finite sequence of `louvainScanCommunityW` operations applied to the
scratch pair. -/
def louvainScanSequenceW (ops : List ScanOp) (s : List Nat × List W) :
    List Nat × List W :=
  ops.foldl (fun p op => louvainScanCommunityW op.SELF p.1 p.2 op.u op.v op.w op.vcom) s

/-- A scan sequence preserves the scratch invariant. -/
theorem scanInv_scanSequence (ops : List ScanOp) :
    ∀ s : List Nat × List W, scanInv s.1 s.2 →
      scanInv (louvainScanSequenceW ops s).1 (louvainScanSequenceW ops s).2 := by
  induction ops with
  | nil => intro s h; exact h
  | cons op rest ih =>
    intro s h
    exact ih _ (scanInv_scan op.SELF s.1 s.2 op.u op.v op.w op.vcom h)

/-- Folding zero-writes over `vcs` zeroes exactly the members of `vcs`. -/
theorem foldl_setZero_getD (vcs : List Nat) :
    ∀ (vcout : List W) (c : Nat),
      (vcs.foldl (fun a c' => a.set c' 0) vcout).getD c 0 =
        if c ∈ vcs then 0 else vcout.getD c 0 := by
  induction vcs with
  | nil => intro vcout c; simp
  | cons c' rest ih =>
    intro vcout c
    by_cases hr : c ∈ rest
    · simp only [List.foldl_cons, ih, if_pos hr, if_pos (List.mem_cons_of_mem c' hr)]
    · by_cases hc : c = c'
      · subst hc
        simp only [List.foldl_cons, ih, if_neg hr, if_pos (List.mem_cons_self c rest)]
        exact getD_set_self_default vcout c 0
      · simp only [List.foldl_cons, ih, if_neg hr]
        rw [if_neg (by simp [hc, hr]), getD_set_other _ _ _ _ _ (fun h => hc h.symm)]

/-- Clearing a scratch pair that satisfies the invariant zeroes every entry. -/
theorem clearScan_zero (vcs : List Nat) (vcout : List W) (h : scanInv vcs vcout) :
    ∀ c, (louvainClearScanW vcs vcout).2.getD c 0 = 0 := by
  intro c
  unfold louvainClearScanW
  rw [foldl_setZero_getD]
  by_cases hc : c ∈ vcs
  · rw [if_pos hc]
  · rw [if_neg hc]
    by_contra hne
    exact hc (h c hne)

/-- Claim C9: starting from an all-zero `vcout` and an empty `vcs`, after any
sequence of `louvainScanCommunityW` operations followed by one
`louvainClearScanW`, every entry of `vcout` is zero and `vcs` is empty. -/
theorem louvainClearScanW_resets (ops : List ScanOp) (S : Nat) :
    (louvainClearScanW (louvainScanSequenceW ops ([], List.replicate S 0)).1
      (louvainScanSequenceW ops ([], List.replicate S 0)).2).1 = [] ∧
    ∀ c, (louvainClearScanW (louvainScanSequenceW ops ([], List.replicate S 0)).1
      (louvainScanSequenceW ops ([], List.replicate S 0)).2).2.getD c 0 = 0 := by
  have hinv0 : scanInv ([] : List Nat) (List.replicate S (0 : W)) := by
    intro c hc
    exact absurd (getD_replicate S c (0 : W)) hc
  have hinv := scanInv_scanSequence ops ([], List.replicate S 0) hinv0
  exact ⟨rfl, clearScan_zero _ _ hinv⟩

/-! ### Claim C2: the scorer's sentinel and the mover's `if (c)` test -/

/-- Sentinel case of the scorer: when no candidate other than `u`'s own
community has a strictly positive gain, the fold never leaves `(K(), 0)`. -/
theorem louvainChooseCommunity_sentinel (u : Nat) (vcom : List Nat)
    (vtot ctot : List W) (vcs : List Nat) (vcout : List W) (M R : W)
    (h : ∀ c ∈ vcs, c ≠ vcom.getD u 0 →
      deltaModularity (vcout.getD c 0) (vcout.getD (vcom.getD u 0) 0)
        (vtot.getD u 0) (ctot.getD c 0) (ctot.getD (vcom.getD u 0) 0) M R ≤ 0) :
    louvainChooseCommunity false u vcom vtot ctot vcs vcout M R = (0, 0) := by
  unfold louvainChooseCommunity
  induction vcs with
  | nil => rfl
  | cons c rest ih =>
    rw [List.foldl_cons]
    by_cases hcd : c = vcom.getD u 0
    · rw [if_pos ⟨rfl, hcd⟩]
      exact ih (fun c' hc' => h c' (List.mem_cons_of_mem c hc'))
    · rw [if_neg (fun hand => hcd hand.2),
        if_neg (not_lt.mpr (h c (List.mem_cons_self c rest) hcd))]
      exact ih (fun c' hc' => h c' (List.mem_cons_of_mem c hc'))

/-- When the scorer returns the sentinel value `0` the move body leaves
`vcom` untouched (even when the reported gain is strictly positive). -/
theorem louvainMoveBody_sentinel_nochange (x : EGraph) (vtot : List W)
    (M R : W) (st : MoveState) (el : W) (u : Nat)
    (h0 : (louvainChooseCommunity false u st.vcom vtot st.ctot
      (louvainScanCommunitiesW false (louvainClearScanW st.vcs st.vcout).1
        (louvainClearScanW st.vcs st.vcout).2 x u st.vcom).1
      (louvainScanCommunitiesW false (louvainClearScanW st.vcs st.vcout).1
        (louvainClearScanW st.vcs st.vcout).2 x u st.vcom).2 M R).1 = 0) :
    (louvainMoveBody x vtot M R st el u).1.vcom = st.vcom := by
  unfold louvainMoveBody
  by_cases haff : st.vaff.getD u false = false
  · rw [if_pos haff]
  · rw [if_neg haff]
    simp only [h0, ne_eq, not_true_eq_false, if_false, ite_false]

/-- When the vertex is affected and the scorer returns a nonzero community,
the move body performs exactly `louvainChangeCommunityW` on `vcom`. -/
theorem louvainMoveBody_change (x : EGraph) (vtot : List W)
    (M R : W) (st : MoveState) (el : W) (u : Nat)
    (haff : st.vaff.getD u false = true)
    (hc : (louvainChooseCommunity false u st.vcom vtot st.ctot
      (louvainScanCommunitiesW false (louvainClearScanW st.vcs st.vcout).1
        (louvainClearScanW st.vcs st.vcout).2 x u st.vcom).1
      (louvainScanCommunitiesW false (louvainClearScanW st.vcs st.vcout).1
        (louvainClearScanW st.vcs st.vcout).2 x u st.vcom).2 M R).1 ≠ 0) :
    (louvainMoveBody x vtot M R st el u).1.vcom =
      (louvainChangeCommunityW st.vcom st.ctot u
        (louvainChooseCommunity false u st.vcom vtot st.ctot
          (louvainScanCommunitiesW false (louvainClearScanW st.vcs st.vcout).1
            (louvainClearScanW st.vcs st.vcout).2 x u st.vcom).1
          (louvainScanCommunitiesW false (louvainClearScanW st.vcs st.vcout).1
            (louvainClearScanW st.vcs st.vcout).2 x u st.vcom).2 M R).1 vtot).1 := by
  unfold louvainMoveBody
  rw [if_neg (ne_of_eq_of_ne haff (by decide))]
  dsimp only
  rw [if_pos hc]

/-- Claim C2 (amended): if no candidate community in `vcs` other than `u`'s
own strictly improves modularity, `louvainChooseCommunity` returns the
sentinel `(K(), 0)`; and the local-mover performs a community change for `u`
exactly when the scorer returns a community different from `0` — the
sentinel coincides with the label of community `0`, so a strictly improving
candidate whose label is `0` is not moved to. -/
theorem louvainChooseCommunity_sentinel_and_move :
    (∀ (u : Nat) (vcom : List Nat) (vtot ctot : List W) (vcs : List Nat)
      (vcout : List W) (M R : W),
      (∀ c ∈ vcs, c ≠ vcom.getD u 0 →
        deltaModularity (vcout.getD c 0) (vcout.getD (vcom.getD u 0) 0)
          (vtot.getD u 0) (ctot.getD c 0) (ctot.getD (vcom.getD u 0) 0) M R ≤ 0) →
      louvainChooseCommunity false u vcom vtot ctot vcs vcout M R = (0, 0)) ∧
    (∀ (x : EGraph) (vtot : List W) (M R : W) (st : MoveState) (el : W) (u : Nat),
      (louvainChooseCommunity false u st.vcom vtot st.ctot
        (louvainScanCommunitiesW false (louvainClearScanW st.vcs st.vcout).1
          (louvainClearScanW st.vcs st.vcout).2 x u st.vcom).1
        (louvainScanCommunitiesW false (louvainClearScanW st.vcs st.vcout).1
          (louvainClearScanW st.vcs st.vcout).2 x u st.vcom).2 M R).1 = 0 →
      (louvainMoveBody x vtot M R st el u).1.vcom = st.vcom) ∧
    (∀ (x : EGraph) (vtot : List W) (M R : W) (st : MoveState) (el : W) (u : Nat),
      st.vaff.getD u false = true →
      (louvainChooseCommunity false u st.vcom vtot st.ctot
        (louvainScanCommunitiesW false (louvainClearScanW st.vcs st.vcout).1
          (louvainClearScanW st.vcs st.vcout).2 x u st.vcom).1
        (louvainScanCommunitiesW false (louvainClearScanW st.vcs st.vcout).1
          (louvainClearScanW st.vcs st.vcout).2 x u st.vcom).2 M R).1 ≠ 0 →
      (louvainMoveBody x vtot M R st el u).1.vcom =
        (louvainChangeCommunityW st.vcom st.ctot u
          (louvainChooseCommunity false u st.vcom vtot st.ctot
            (louvainScanCommunitiesW false (louvainClearScanW st.vcs st.vcout).1
              (louvainClearScanW st.vcs st.vcout).2 x u st.vcom).1
            (louvainScanCommunitiesW false (louvainClearScanW st.vcs st.vcout).1
              (louvainClearScanW st.vcs st.vcout).2 x u st.vcom).2 M R).1 vtot).1) :=
  ⟨fun u vcom vtot ctot vcs vcout M R h =>
      louvainChooseCommunity_sentinel u vcom vtot ctot vcs vcout M R h,
    fun x vtot M R st el u h0 =>
      louvainMoveBody_sentinel_nochange x vtot M R st el u h0,
    fun x vtot M R st el u haff hc =>
      louvainMoveBody_change x vtot M R st el u haff hc⟩

/-- Concrete two-vertex graph with one unit edge. -/
def exK2 : EGraph := ⟨[[(1, 1)], [(0, 1)]]⟩

/-- Witness for claim C2 at a concrete state: on `exK2` with `vcom = [0, 1]`
the scorer for vertex `0` picks community `1` and the mover performs the
change. -/
theorem louvainChooseCommunity_sentinel_and_move_witness :
    ((⟨[0, 1], [1, 1], [true, true], [], [0, 0]⟩ : MoveState).vaff.getD 0 false = true) ∧
    ((louvainChooseCommunity false 0
        (⟨[0, 1], [1, 1], [true, true], [], [0, 0]⟩ : MoveState).vcom [1, 1]
        (⟨[0, 1], [1, 1], [true, true], [], [0, 0]⟩ : MoveState).ctot
        (louvainScanCommunitiesW false
          (louvainClearScanW (⟨[0, 1], [1, 1], [true, true], [], [0, 0]⟩ : MoveState).vcs
            (⟨[0, 1], [1, 1], [true, true], [], [0, 0]⟩ : MoveState).vcout).1
          (louvainClearScanW (⟨[0, 1], [1, 1], [true, true], [], [0, 0]⟩ : MoveState).vcs
            (⟨[0, 1], [1, 1], [true, true], [], [0, 0]⟩ : MoveState).vcout).2 exK2 0
          (⟨[0, 1], [1, 1], [true, true], [], [0, 0]⟩ : MoveState).vcom).1
        (louvainScanCommunitiesW false
          (louvainClearScanW (⟨[0, 1], [1, 1], [true, true], [], [0, 0]⟩ : MoveState).vcs
            (⟨[0, 1], [1, 1], [true, true], [], [0, 0]⟩ : MoveState).vcout).1
          (louvainClearScanW (⟨[0, 1], [1, 1], [true, true], [], [0, 0]⟩ : MoveState).vcs
            (⟨[0, 1], [1, 1], [true, true], [], [0, 0]⟩ : MoveState).vcout).2 exK2 0
          (⟨[0, 1], [1, 1], [true, true], [], [0, 0]⟩ : MoveState).vcom).2 1 1).1 ≠ 0) ∧
    (louvainMoveBody exK2 [1, 1] 1 1
        (⟨[0, 1], [1, 1], [true, true], [], [0, 0]⟩ : MoveState) 0 0).1.vcom =
      (louvainChangeCommunityW
        (⟨[0, 1], [1, 1], [true, true], [], [0, 0]⟩ : MoveState).vcom
        (⟨[0, 1], [1, 1], [true, true], [], [0, 0]⟩ : MoveState).ctot 0
        (louvainChooseCommunity false 0
          (⟨[0, 1], [1, 1], [true, true], [], [0, 0]⟩ : MoveState).vcom [1, 1]
          (⟨[0, 1], [1, 1], [true, true], [], [0, 0]⟩ : MoveState).ctot
          (louvainScanCommunitiesW false
            (louvainClearScanW (⟨[0, 1], [1, 1], [true, true], [], [0, 0]⟩ : MoveState).vcs
              (⟨[0, 1], [1, 1], [true, true], [], [0, 0]⟩ : MoveState).vcout).1
            (louvainClearScanW (⟨[0, 1], [1, 1], [true, true], [], [0, 0]⟩ : MoveState).vcs
              (⟨[0, 1], [1, 1], [true, true], [], [0, 0]⟩ : MoveState).vcout).2 exK2 0
            (⟨[0, 1], [1, 1], [true, true], [], [0, 0]⟩ : MoveState).vcom).1
          (louvainScanCommunitiesW false
            (louvainClearScanW (⟨[0, 1], [1, 1], [true, true], [], [0, 0]⟩ : MoveState).vcs
              (⟨[0, 1], [1, 1], [true, true], [], [0, 0]⟩ : MoveState).vcout).1
            (louvainClearScanW (⟨[0, 1], [1, 1], [true, true], [], [0, 0]⟩ : MoveState).vcs
              (⟨[0, 1], [1, 1], [true, true], [], [0, 0]⟩ : MoveState).vcout).2 exK2 0
            (⟨[0, 1], [1, 1], [true, true], [], [0, 0]⟩ : MoveState).vcom).2 1 1).1
        [1, 1]).1 :=
  ⟨by with_unfolding_all decide,
    by with_unfolding_all decide,
    louvainChooseCommunity_sentinel_and_move.2.2 exK2 [1, 1] 1 1
      ⟨[0, 1], [1, 1], [true, true], [], [0, 0]⟩ 0 0
      (by with_unfolding_all decide) (by with_unfolding_all decide)⟩

/-- Counterexample to claim C2 as stated: on `exK2` with `vcom = [0, 1]`,
vertex `1`'s only candidate is community `0` with strictly positive gain
`1/2`; the scorer returns `(0, 1/2)` — the "sentinel" value paired with a
positive gain — and the mover performs no community change, although a
strictly improving candidate was found. -/
theorem louvainMove_skips_positive_gain_into_zero :
    louvainScanCommunitiesW false [] [0, 0] exK2 1 [0, 1] = ([0], [1, 0]) ∧
    louvainChooseCommunity false 1 [0, 1] [1, 1] [1, 1] [0] [1, 0] 1 1 = (0, 1 / 2) ∧
    (0 : W) < 1 / 2 ∧
    (louvainMoveBody exK2 [1, 1] 1 1
      (⟨[0, 1], [1, 1], [false, true], [], [0, 0]⟩ : MoveState) 0 1).1.vcom = [0, 1] := by
  refine ⟨?_, ?_, ?_, ?_⟩ <;> with_unfolding_all decide

/-! ### Claims C1, C3, C4: the pass driver -/

/-- Specification-side definition, following the words of claim C1 and §8.5:
the label obtained for original vertex `u` by walking the per-level `vcom`
chains bottom-up, composing through every level's assignment and applying
the renumbering of each aggregated level before its `vcom` is reset. -/
def specMembershipWalk (trace : List PassRecord) (u : Nat) : Nat :=
  trace.foldl
    (fun t r =>
      match r.renum with
      | some cext => cext.getD (r.vcomAfterMove.getD t 0) 0
      | none => r.vcomAfterMove.getD t 0) u

/-- Concrete graph: two vertices and no edges (`M = 0`). -/
def exEdgeless2 : EGraph := ⟨[[], []]⟩

/-- Concrete graph: two disjoint weighted triangles `{0,1,2}` and `{3,4,5}`
with `w(0,1) = w(1,2) = 1`, `w(0,2) = 2` (mirrored on the second triangle),
symmetric. -/
def exWTri2 : EGraph := ⟨[
  [(1, 1), (2, 2)], [(0, 1), (2, 1)], [(0, 2), (1, 1)],
  [(4, 1), (5, 2)], [(3, 1), (5, 1)], [(3, 2), (4, 1)]]⟩

/-- Claim C1, evaluation at the failing input: on `exWTri2` the serial driver
returns the all-zero membership — both triangles collapse to one label —
while the bottom-up walk of the per-level `vcom` chains with renumbering
applied (claim C1's composition) yields `[0, 0, 0, 1, 1, 1]`.  The serial
driver composes `a` through `vcom` before renumbering and never applies the
renumbering map to `a`, so the second pass indexes the aggregated graph with
stale labels. -/
theorem louvainSeq_membership_differs_from_walk :
    (louvainStaticSeq exWTri2 none {}).membership = [0, 0, 0, 0, 0, 0] ∧
    (List.range 6).map
      (specMembershipWalk
        (louvainSeqTrace exWTri2 none {} (fun va => List.replicate va.length true)).2) =
      [0, 0, 0, 1, 1, 1] ∧
    (louvainStaticSeq exWTri2 none {}).membership ≠
      (List.range 6).map
        (specMembershipWalk
          (louvainSeqTrace exWTri2 none {} (fun va => List.replicate va.length true)).2) := by
  refine ⟨?_, ?_, ?_⟩ <;> with_unfolding_all decide

/-- Claim C3, evaluation at the failing input: on a two-vertex graph with no
edges (`M = 0`) the serial driver does return immediately with `0` iterations
and `0` passes, but its membership is the zero-filled array `[0, 0]`, not the
identity map `[0, 1]` — `a` is only ever written inside the pass loop, which
is never entered when `M ≤ 0`. -/
theorem louvainSeq_emptyM_membership_is_zero_fill :
    (louvainStaticSeq exEdgeless2 none {}).membership = [0, 0] ∧
    (louvainStaticSeq exEdgeless2 none {}).iterations = 0 ∧
    (louvainStaticSeq exEdgeless2 none {}).passes = 0 ∧
    (louvainStaticSeq exEdgeless2 none {}).membership ≠ List.range exEdgeless2.span := by
  refine ⟨?_, ?_, ?_, ?_⟩ <;> with_unfolding_all decide

/-- Iteration counter of the pass loop: every executed pass contributes
`max(m, 1)` to `l` (source line 749, `l += max(m, 1)`). -/
theorem louvainSeqLoop_iterations (S : Nat) (o : LouvainOptions) (M : W) :
    ∀ (fuel : Nat) (st : SeqState),
      (louvainSeqLoop S o M fuel st).1.l =
        st.l + (((louvainSeqLoop S o M fuel st).2).map (fun r => max r.m 1)).sum := by
  intro fuel
  induction fuel with
  | zero => intro st; simp [louvainSeqLoop]
  | succ fuel ih =>
    intro st
    rw [louvainSeqLoop]
    by_cases h1 : ¬(0 < M ∧ st.p < o.maxPasses)
    · rw [if_pos h1]; simp
    · rw [if_neg h1]
      dsimp only
      split
      · simp
      · split
        · simp
        · rw [List.map_cons, List.sum_cons, ih]
          dsimp only
          omega

/-- Claim C4 (amended): the `iterations` field of the returned result equals
the sum over all executed passes of `max(m, 1)`, where `m` is the iteration
count returned by the local-mover for that pass; a pass whose local-mover
returns `0` therefore contributes `1`, not `0`. -/
theorem louvainSeq_iterations_eq_sum_max (x : EGraph) (q : Option (List Nat))
    (o : LouvainOptions) (fm : List Bool → List Bool) :
    (louvainSeqTrace x q o fm).1.iterations =
      (((louvainSeqTrace x q o fm).2).map (fun r => max r.m 1)).sum := by
  unfold louvainSeqTrace
  dsimp only
  rw [louvainSeqLoop_iterations]
  simp

/-- Counterexample to claim C4 as stated: on `exK2` preloaded with the
already-converged partition `q = [0, 0]`, the single executed pass has
`m = 0`, so `Σm = 0`, yet the returned `iterations` is `1` (the driver adds
`max(m, 1)`). -/
theorem louvainSeq_iterations_ne_sum_m :
    (louvainSeqTrace exK2 (some [0, 0]) {}
      (fun va => List.replicate va.length true)).1.iterations = 1 ∧
    (((louvainSeqTrace exK2 (some [0, 0]) {}
      (fun va => List.replicate va.length true)).2).map (fun r => r.m)).sum = 0 ∧
    (louvainSeqTrace exK2 (some [0, 0]) {}
        (fun va => List.replicate va.length true)).1.iterations ≠
      (((louvainSeqTrace exK2 (some [0, 0]) {}
        (fun va => List.replicate va.length true)).2).map (fun r => r.m)).sum := by
  refine ⟨?_, ?_, ?_⟩ <;> with_unfolding_all decide

/-! ### Claim C6: the community-weight invariant -/

/-- Invariant of §3 and §8.1: `ctot[c] = Σ_{u : vcom[u] = c} vtot[u]`, summed
over all state indices below the allocation size `S`. -/
def ctotInvariant (S : Nat) (vcom : List Nat) (vtot ctot : List W) : Prop :=
  ∀ c, ctot.getD c 0 =
    ∑ u ∈ Finset.range S, if vcom.getD u 0 = c then vtot.getD u 0 else 0

/-- Pointwise description of the singleton-initialisation fold after the
first `m` vertices. -/
theorem initFold_getD (S : Nat) (vtot : List W) :
    ∀ (m : Nat), m ≤ S →
      (∀ i, ((List.range m).foldl
        (fun (p : List Nat × List W) u => (p.1.set u u, p.2.set u (vtot.getD u 0)))
        (List.replicate S 0, List.replicate S 0)).1.getD i 0 =
          if i < m then i else 0) ∧
      (∀ c, ((List.range m).foldl
        (fun (p : List Nat × List W) u => (p.1.set u u, p.2.set u (vtot.getD u 0)))
        (List.replicate S 0, List.replicate S 0)).2.getD c 0 =
          if c < m then vtot.getD c 0 else 0) ∧
      ((List.range m).foldl
        (fun (p : List Nat × List W) u => (p.1.set u u, p.2.set u (vtot.getD u 0)))
        (List.replicate S 0, List.replicate S 0)).1.length = S ∧
      ((List.range m).foldl
        (fun (p : List Nat × List W) u => (p.1.set u u, p.2.set u (vtot.getD u 0)))
        (List.replicate S 0, List.replicate S 0)).2.length = S := by
  intro m
  induction m with
  | zero =>
    intro _
    refine ⟨fun i => ?_, fun c => ?_, by simp, by simp⟩
    · simp [getD_replicate]
    · simp [getD_replicate]
  | succ m ih =>
    intro hm
    obtain ⟨ih1, ih2, ihl1, ihl2⟩ := ih (Nat.le_of_succ_le hm)
    rw [List.range_succ, List.foldl_append, List.foldl_cons, List.foldl_nil]
    refine ⟨fun i => ?_, fun c => ?_, by simpa using ihl1, by simpa using ihl2⟩
    · by_cases hi : i = m
      · subst hi
        rw [getD_set_same _ _ _ _ (by rw [ihl1]; exact Nat.lt_of_succ_le hm),
          if_pos (Nat.lt_succ_self i)]
      · rw [getD_set_other _ _ _ _ _ (fun h => hi h.symm), ih1 i]
        by_cases hlt : i < m
        · rw [if_pos hlt, if_pos (Nat.lt_succ_of_lt hlt)]
        · rw [if_neg hlt, if_neg (fun h => hi (Nat.eq_of_lt_succ_of_not_lt h hlt))]
    · by_cases hc : c = m
      · subst hc
        rw [getD_set_same _ _ _ _ (by rw [ihl2]; exact Nat.lt_of_succ_le hm),
          if_pos (Nat.lt_succ_self c)]
      · rw [getD_set_other _ _ _ _ _ (fun h => hc h.symm), ih2 c]
        by_cases hlt : c < m
        · rw [if_pos hlt, if_pos (Nat.lt_succ_of_lt hlt)]
        · rw [if_neg hlt, if_neg (fun h => hc (Nat.eq_of_lt_succ_of_not_lt h hlt))]

/-- Pointwise description of the from-partition initialisation fold after the
first `m` vertices. -/
theorem initFromFold_getD (S : Nat) (vtot : List W) (q : List Nat) :
    ∀ (m : Nat), m ≤ S → (∀ u, u < m → q.getD u 0 < S) →
      (∀ i, ((List.range m).foldl
        (fun (p : List Nat × List W) u =>
          (p.1.set u (q.getD u 0), p.2.set (q.getD u 0) (p.2.getD (q.getD u 0) 0 + vtot.getD u 0)))
        (List.replicate S 0, List.replicate S 0)).1.getD i 0 =
          if i < m then q.getD i 0 else 0) ∧
      (∀ c, ((List.range m).foldl
        (fun (p : List Nat × List W) u =>
          (p.1.set u (q.getD u 0), p.2.set (q.getD u 0) (p.2.getD (q.getD u 0) 0 + vtot.getD u 0)))
        (List.replicate S 0, List.replicate S 0)).2.getD c 0 =
          ∑ u ∈ Finset.range m, if q.getD u 0 = c then vtot.getD u 0 else 0) ∧
      ((List.range m).foldl
        (fun (p : List Nat × List W) u =>
          (p.1.set u (q.getD u 0), p.2.set (q.getD u 0) (p.2.getD (q.getD u 0) 0 + vtot.getD u 0)))
        (List.replicate S 0, List.replicate S 0)).1.length = S ∧
      ((List.range m).foldl
        (fun (p : List Nat × List W) u =>
          (p.1.set u (q.getD u 0), p.2.set (q.getD u 0) (p.2.getD (q.getD u 0) 0 + vtot.getD u 0)))
        (List.replicate S 0, List.replicate S 0)).2.length = S := by
  intro m
  induction m with
  | zero =>
    intro _ _
    refine ⟨fun i => ?_, fun c => ?_, by simp, by simp⟩
    · simp [getD_replicate]
    · simp [getD_replicate]
  | succ m ih =>
    intro hm hq
    obtain ⟨ih1, ih2, ihl1, ihl2⟩ :=
      ih (Nat.le_of_succ_le hm) (fun u hu => hq u (Nat.lt_succ_of_lt hu))
    rw [List.range_succ, List.foldl_append, List.foldl_cons, List.foldl_nil]
    refine ⟨fun i => ?_, fun c => ?_, by simpa using ihl1, by simpa using ihl2⟩
    · by_cases hi : i = m
      · subst hi
        rw [getD_set_same _ _ _ _ (by rw [ihl1]; exact Nat.lt_of_succ_le hm),
          if_pos (Nat.lt_succ_self i)]
      · rw [getD_set_other _ _ _ _ _ (fun h => hi h.symm), ih1 i]
        by_cases hlt : i < m
        · rw [if_pos hlt, if_pos (Nat.lt_succ_of_lt hlt)]
        · rw [if_neg hlt, if_neg (fun h => hi (Nat.eq_of_lt_succ_of_not_lt h hlt))]
    · rw [Finset.sum_range_succ]
      by_cases hc : c = q.getD m 0
      · subst hc
        rw [getD_set_same _ _ _ _ (by rw [ihl2]; exact hq m (Nat.lt_succ_self m)),
          ih2, if_pos rfl]
      · rw [getD_set_other _ _ _ _ _ (fun h => hc h.symm), ih2,
          if_neg (fun h => hc h.symm), add_zero]

/-- Fibre sums after a pointwise community move: writing `c` at position `u`
removes `u`'s contribution from its old fibre and adds it to `c`'s. -/
theorem sum_ite_set_vcom (S : Nat) (vcom : List Nat) (vtot : List W)
    (u c : Nat) (hu : u < S) (huv : u < vcom.length) (e : Nat) :
    (∑ v ∈ Finset.range S, if (vcom.set u c).getD v 0 = e then vtot.getD v 0 else 0) =
      (∑ v ∈ Finset.range S, if vcom.getD v 0 = e then vtot.getD v 0 else 0)
        - (if vcom.getD u 0 = e then vtot.getD u 0 else 0)
        + (if c = e then vtot.getD u 0 else 0) := by
  have humem : u ∈ Finset.range S := Finset.mem_range.mpr hu
  rw [Finset.sum_eq_sum_diff_singleton_add humem
      (fun v => if (vcom.set u c).getD v 0 = e then vtot.getD v 0 else 0),
    Finset.sum_eq_sum_diff_singleton_add humem
      (fun v => if vcom.getD v 0 = e then vtot.getD v 0 else 0)]
  have hcong : ∀ v ∈ Finset.range S \ {u},
      (if (vcom.set u c).getD v 0 = e then vtot.getD v 0 else 0) =
        (if vcom.getD v 0 = e then vtot.getD v 0 else 0) := by
    intro v hv
    rw [getD_set_other _ _ _ _ _ (fun h => (Finset.mem_sdiff.mp hv).2 (by simp [h]))]
  rw [Finset.sum_congr rfl hcong, getD_set_same _ _ _ _ huv]
  ring

/-- Claim C6: after community initialisation (singleton, or from a given
partition `q`) and after every `louvainChangeCommunityW`, `ctot[c]` equals
the sum of `vtot[u]` over all `u` with `vcom[u] = c`, for every community
`c`; consequently the total `Σ_c ctot[c] = Σ_u vtot[u]` is preserved. -/
theorem louvain_ctot_invariant :
    (∀ (S : Nat) (x : EGraph) (vtot : List W), x.span ≤ S →
      (∀ u, u < S → x.span ≤ u → vtot.getD u 0 = 0) →
      ctotInvariant S (louvainInitializeW S x vtot).1 vtot
        (louvainInitializeW S x vtot).2) ∧
    (∀ (S : Nat) (x : EGraph) (vtot : List W) (q : List Nat), x.span ≤ S →
      (∀ u, u < S → x.span ≤ u → vtot.getD u 0 = 0) →
      (∀ u, u < x.span → q.getD u 0 < S) →
      ctotInvariant S (louvainInitializeFromW S x vtot q).1 vtot
        (louvainInitializeFromW S x vtot q).2) ∧
    (∀ (S : Nat) (vcom : List Nat) (vtot ctot : List W) (u c : Nat),
      u < S → u < vcom.length → vcom.getD u 0 < ctot.length → c < ctot.length →
      ctotInvariant S vcom vtot ctot →
      ctotInvariant S (louvainChangeCommunityW vcom ctot u c vtot).1 vtot
        (louvainChangeCommunityW vcom ctot u c vtot).2) ∧
    (∀ (S : Nat) (vcom : List Nat) (vtot ctot : List W),
      ctotInvariant S vcom vtot ctot → (∀ u, u < S → vcom.getD u 0 < S) →
      ∑ c ∈ Finset.range S, ctot.getD c 0 = ∑ u ∈ Finset.range S, vtot.getD u 0) := by
  have hswap : ∀ (a b : Nat) (wv : W),
      (if a = b then wv else 0) = (if b = a then wv else 0) := by
    intro a b wv
    by_cases hab : a = b
    · rw [if_pos hab, if_pos hab.symm]
    · rw [if_neg hab, if_neg (fun h => hab h.symm)]
  refine ⟨?_, ?_, ?_, ?_⟩
  · intro S x vtot hS hv0 c
    obtain ⟨h1, h2, _, _⟩ := initFold_getD S vtot x.span hS
    unfold louvainInitializeW
    rw [h2 c, Finset.sum_congr rfl (fun u _ => by rw [h1 u])]
    have hvan : ∀ u ∈ Finset.range S, u ∉ Finset.range x.span →
        (if (if u < x.span then u else 0) = c then vtot.getD u 0 else 0) = 0 := by
      intro u hu hnu
      have hnlt : ¬ u < x.span := fun h => hnu (Finset.mem_range.mpr h)
      rw [if_neg hnlt, hv0 u (Finset.mem_range.mp hu) (Nat.le_of_not_lt hnlt), ite_self]
    rw [← Finset.sum_subset (Finset.range_subset.mpr hS) hvan,
      Finset.sum_congr rfl (fun u hu => by rw [if_pos (Finset.mem_range.mp hu)]),
      Finset.sum_ite_eq' (Finset.range x.span) c (fun u => vtot.getD u 0)]
    by_cases hc : c < x.span
    · rw [if_pos hc, if_pos (Finset.mem_range.mpr hc)]
    · rw [if_neg hc, if_neg (fun h => hc (Finset.mem_range.mp h))]
  · intro S x vtot q hS hv0 hq c
    obtain ⟨h1, h2, _, _⟩ := initFromFold_getD S vtot q x.span hS hq
    have h1' : ∀ i, (louvainInitializeFromW S x vtot q).1.getD i 0 =
        if i < x.span then q.getD i 0 else 0 := h1
    have h2' : (louvainInitializeFromW S x vtot q).2.getD c 0 =
        ∑ u ∈ Finset.range x.span, if q.getD u 0 = c then vtot.getD u 0 else 0 := h2 c
    have e1 : (∑ u ∈ Finset.range S,
          if (louvainInitializeFromW S x vtot q).1.getD u 0 = c then vtot.getD u 0 else 0)
        = ∑ u ∈ Finset.range S,
          if (if u < x.span then q.getD u 0 else 0) = c then vtot.getD u 0 else 0 :=
      Finset.sum_congr rfl (fun u _ => by rw [h1' u])
    have e2 : (∑ u ∈ Finset.range x.span,
          if (if u < x.span then q.getD u 0 else 0) = c then vtot.getD u 0 else 0)
        = ∑ u ∈ Finset.range S,
          if (if u < x.span then q.getD u 0 else 0) = c then vtot.getD u 0 else 0 := by
      refine Finset.sum_subset (Finset.range_subset.mpr hS) ?_
      intro u hu hnu
      have hnlt : ¬ u < x.span := fun h => hnu (Finset.mem_range.mpr h)
      rw [if_neg hnlt, hv0 u (Finset.mem_range.mp hu) (Nat.le_of_not_lt hnlt), ite_self]
    have e3 : (∑ u ∈ Finset.range x.span,
          if (if u < x.span then q.getD u 0 else 0) = c then vtot.getD u 0 else 0)
        = ∑ u ∈ Finset.range x.span, if q.getD u 0 = c then vtot.getD u 0 else 0 :=
      Finset.sum_congr rfl (fun u hu => by rw [if_pos (Finset.mem_range.mp hu)])
    rw [h2', e1, ← e2, e3]
  · intro S vcom vtot ctot u c hu huv hd hc hinv e
    obtain ⟨_, _, h3, _, _⟩ := louvainChangeCommunityW_getD vcom ctot vtot u c huv hd hc
    have hfst : (louvainChangeCommunityW vcom ctot u c vtot).1 = vcom.set u c := rfl
    rw [h3 e, hfst, sum_ite_set_vcom S vcom vtot u c hu huv e, ← hinv e,
      hswap (vcom.getD u 0) e (vtot.getD u 0), hswap c e (vtot.getD u 0)]
  · intro S vcom vtot ctot hinv hlab
    rw [Finset.sum_congr rfl (fun c _ => hinv c), Finset.sum_comm]
    refine Finset.sum_congr rfl (fun u hu => ?_)
    rw [Finset.sum_ite_eq (Finset.range S) (vcom.getD u 0) (fun _ => vtot.getD u 0),
      if_pos (Finset.mem_range.mpr (hlab u (Finset.mem_range.mp hu)))]

/-- Witness for claim C6 at a concrete state. -/
theorem louvain_ctot_invariant_witness :
    ((0 : Nat) < 2 ∧ (0 : Nat) < ([0, 0] : List Nat).length ∧
      ([0, 0] : List Nat).getD 0 0 < ([0, 0] : List W).length ∧
      (1 : Nat) < ([0, 0] : List W).length ∧
      ctotInvariant 2 [0, 0] [0, 0] [0, 0]) ∧
    ctotInvariant 2 (louvainChangeCommunityW [0, 0] [0, 0] 0 1 [0, 0]).1 [0, 0]
      (louvainChangeCommunityW [0, 0] [0, 0] 0 1 [0, 0]).2 := by
  have hinv : ctotInvariant 2 [0, 0] [0, 0] [0, 0] := by
    intro c
    have hl : ([0, 0] : List W).getD c 0 = 0 := by
      rcases c with _ | _ | n <;> rfl
    rw [hl, Finset.sum_range_succ, Finset.sum_range_succ, Finset.sum_range_zero]
    simp
  exact ⟨⟨by decide, by decide, by decide, by decide, hinv⟩,
    louvain_ctot_invariant.2.2.1 2 [0, 0] [0, 0] [0, 0] 0 1 (by decide) (by decide)
      (by decide) (by decide) hinv⟩

/-! ### Claim C7: renumbering machinery -/

/-- Prefix sums of a list starting from `s` (the functional content of the
in-place `exclusiveScanW`). -/
def scanAux : List Nat → Nat → List Nat
  | [], _ => []
  | v :: t, s => s :: scanAux t (s + v)

theorem exclusiveScanW_foldl (a : List Nat) :
    ∀ (acc : List Nat) (s : Nat),
      a.foldl (fun (p : List Nat × Nat) v => (p.1 ++ [p.2], p.2 + v)) (acc, s) =
        (acc ++ scanAux a s, s + a.sum) := by
  induction a with
  | nil => intro acc s; simp [scanAux]
  | cons v t ih =>
    intro acc s
    rw [List.foldl_cons, ih, scanAux, List.sum_cons]
    refine Prod.ext ?_ ?_
    · simp
    · simp [Nat.add_assoc]

theorem exclusiveScanW_eq (a : List Nat) :
    exclusiveScanW a = (scanAux a 0, a.sum) := by
  unfold exclusiveScanW
  rw [exclusiveScanW_foldl a [] 0, List.nil_append, Nat.zero_add]

theorem scanAux_length (a : List Nat) : ∀ s, (scanAux a s).length = a.length := by
  induction a with
  | nil => intro s; rfl
  | cons v t ih => intro s; simp [scanAux, ih]

theorem scanAux_getD (a : List Nat) :
    ∀ (s i : Nat), i < a.length →
      (scanAux a s).getD i 0 = s + (a.take i).sum := by
  induction a with
  | nil => intro s i hi; simp at hi
  | cons v t ih =>
    intro s i hi
    cases i with
    | zero => simp [scanAux]
    | succ i =>
      rw [scanAux, List.getD_cons_succ, ih (s + v) i (by simpa using hi)]
      simp [Nat.add_assoc]

/-- Sum of a prefix of a list as a `Finset` sum of its entries. -/
theorem take_sum_getD (l : List Nat) :
    ∀ c, c ≤ l.length → (l.take c).sum = ∑ j ∈ Finset.range c, l.getD j 0 := by
  induction l with
  | nil =>
    intro c hc
    obtain rfl : c = 0 := Nat.le_zero.mp (by simpa using hc)
    simp
  | cons v t ih =>
    intro c hc
    cases c with
    | zero => simp
    | succ c =>
      rw [List.take_succ_cons, List.sum_cons, Finset.sum_range_succ']
      rw [ih c (by simpa using hc)]
      simp [Nat.add_comm]

/-- Pointwise description of the `louvainCommunityExistsW` fold after the
first `m` vertices: the flags are the indicator of the set of labels seen,
and the count is the number of distinct labels seen. -/
theorem communityExistsFold_spec (flagLen : Nat) (vcom : List Nat) :
    ∀ (m : Nat), (∀ u, u < m → vcom.getD u 0 < flagLen) →
      (∀ c, ((List.range m).foldl
        (fun (p : List Nat × Nat) u =>
          let c := vcom.getD u 0
          let C := if p.1.getD c 0 = 0 then p.2 + 1 else p.2
          (p.1.set c 1, C))
        (List.replicate flagLen 0, 0)).1.getD c 0 =
          if c ∈ (Finset.range m).image (fun u => vcom.getD u 0) then 1 else 0) ∧
      ((List.range m).foldl
        (fun (p : List Nat × Nat) u =>
          let c := vcom.getD u 0
          let C := if p.1.getD c 0 = 0 then p.2 + 1 else p.2
          (p.1.set c 1, C))
        (List.replicate flagLen 0, 0)).2 =
          ((Finset.range m).image (fun u => vcom.getD u 0)).card ∧
      ((List.range m).foldl
        (fun (p : List Nat × Nat) u =>
          let c := vcom.getD u 0
          let C := if p.1.getD c 0 = 0 then p.2 + 1 else p.2
          (p.1.set c 1, C))
        (List.replicate flagLen 0, 0)).1.length = flagLen := by
  intro m
  induction m with
  | zero =>
    intro _
    refine ⟨fun c => ?_, by simp, by simp⟩
    simp [getD_replicate]
  | succ m ih =>
    intro hb
    obtain ⟨ih1, ih2, ihl⟩ := ih (fun u hu => hb u (Nat.lt_succ_of_lt hu))
    rw [List.range_succ, List.foldl_append, List.foldl_cons, List.foldl_nil]
    have him : (Finset.range (m + 1)).image (fun u => vcom.getD u 0) =
        insert (vcom.getD m 0) ((Finset.range m).image (fun u => vcom.getD u 0)) := by
      rw [Finset.range_succ, Finset.image_insert]
    refine ⟨fun c => ?_, ?_, by simpa using ihl⟩
    · dsimp only
      by_cases hc : c = vcom.getD m 0
      · subst hc
        rw [getD_set_same _ _ _ _ (by rw [ihl]; exact hb m (Nat.lt_succ_self m)),
          if_pos (by rw [him]; exact Finset.mem_insert_self _ _)]
      · rw [getD_set_other _ _ _ _ _ (fun h => hc h.symm), ih1 c]
        refine if_congr ?_ rfl rfl
        rw [him, Finset.mem_insert]
        constructor
        · exact fun h => Or.inr h
        · rintro (h | h)
          · exact absurd h hc
          · exact h
    · dsimp only
      rw [ih1 (vcom.getD m 0), him, ih2]
      by_cases hmem : vcom.getD m 0 ∈ (Finset.range m).image (fun u => vcom.getD u 0)
      · rw [if_pos hmem, if_neg (by simp), Finset.insert_eq_self.mpr hmem]
      · rw [if_neg hmem, if_pos rfl, Finset.card_insert_of_not_mem hmem]

/-- Rank of an existing community below its own label is below the number of
communities. -/
theorem rank_lt_card {s : Finset Nat} {c : Nat} (hc : c ∈ s) :
    (s.filter (fun c' => c' < c)).card < s.card := by
  refine Finset.card_lt_card ?_
  rw [Finset.ssubset_iff_of_subset (Finset.filter_subset _ s)]
  exact ⟨c, hc, by simp⟩

/-- Rank is injective on the existing communities. -/
theorem rank_inj {s : Finset Nat} {c c' : Nat} (hc : c ∈ s) (hc' : c' ∈ s)
    (h : (s.filter (fun x => x < c)).card = (s.filter (fun x => x < c')).card) :
    c = c' := by
  rcases Nat.lt_trichotomy c c' with hlt | heq | hgt
  · exfalso
    have hsub : s.filter (fun x => x < c) ⊆ s.filter (fun x => x < c') := by
      intro x hx
      obtain ⟨hxs, hxlt⟩ := Finset.mem_filter.mp hx
      exact Finset.mem_filter.mpr ⟨hxs, lt_trans hxlt hlt⟩
    have hss : s.filter (fun x => x < c) ⊂ s.filter (fun x => x < c') := by
      rw [Finset.ssubset_iff_of_subset hsub]
      exact ⟨c, Finset.mem_filter.mpr ⟨hc, hlt⟩, by simp⟩
    exact absurd h (Nat.ne_of_lt (Finset.card_lt_card hss))
  · exact heq
  · exfalso
    have hsub : s.filter (fun x => x < c') ⊆ s.filter (fun x => x < c) := by
      intro x hx
      obtain ⟨hxs, hxlt⟩ := Finset.mem_filter.mp hx
      exact Finset.mem_filter.mpr ⟨hxs, lt_trans hxlt hgt⟩
    have hss : s.filter (fun x => x < c') ⊂ s.filter (fun x => x < c) := by
      rw [Finset.ssubset_iff_of_subset hsub]
      exact ⟨c', Finset.mem_filter.mpr ⟨hc', hgt⟩, by simp⟩
    exact absurd h.symm (Nat.ne_of_lt (Finset.card_lt_card hss))

/-- Every rank below the number of communities is attained. -/
theorem rank_surj :
    ∀ (k : Nat) (s : Finset Nat), k < s.card →
      ∃ c ∈ s, (s.filter (fun x => x < c)).card = k := by
  intro k
  induction k with
  | zero =>
    intro s hk
    have hne : s.Nonempty := Finset.card_pos.mp hk
    refine ⟨s.min' hne, s.min'_mem hne, ?_⟩
    rw [Finset.card_eq_zero]
    refine Finset.eq_empty_of_forall_not_mem (fun x hx => ?_)
    obtain ⟨hxs, hxlt⟩ := Finset.mem_filter.mp hx
    exact absurd hxlt (not_lt.mpr (s.min'_le x hxs))
  | succ k ih =>
    intro s hk
    have hne : s.Nonempty := Finset.card_pos.mp (by omega)
    have hmmem := s.min'_mem hne
    have hcard : (s.erase (s.min' hne)).card = s.card - 1 :=
      Finset.card_erase_of_mem hmmem
    obtain ⟨c, hc, hrank⟩ := ih (s.erase (s.min' hne)) (by omega)
    have hcs : c ∈ s := Finset.mem_of_mem_erase hc
    have hmc : s.min' hne < c :=
      lt_of_le_of_ne (s.min'_le c hcs) (fun h => (Finset.mem_erase.mp hc).1 h.symm)
    refine ⟨c, hcs, ?_⟩
    have hsplit : s.filter (fun x => x < c) =
        insert (s.min' hne) ((s.erase (s.min' hne)).filter (fun x => x < c)) := by
      ext x
      rw [Finset.mem_insert, Finset.mem_filter, Finset.mem_filter, Finset.mem_erase]
      constructor
      · intro ⟨hxs, hxc⟩
        by_cases hxm : x = s.min' hne
        · exact Or.inl hxm
        · exact Or.inr ⟨⟨hxm, hxs⟩, hxc⟩
      · rintro (h | ⟨⟨_, hxs⟩, hxc⟩)
        · exact ⟨h ▸ hmmem, h ▸ hmc⟩
        · exact ⟨hxs, hxc⟩
    rw [hsplit, Finset.card_insert_of_not_mem
      (fun h => (Finset.mem_erase.mp (Finset.mem_filter.mp h).1).1 rfl), hrank]

/-- Reading a mapped list inside its bounds. -/
theorem getD_map_lt (l : List Nat) (f : Nat → Nat) (i : Nat) (h : i < l.length) :
    (l.map f).getD i 0 = f (l.getD i 0) := by
  induction l generalizing i with
  | nil => simp at h
  | cons a t ih =>
    cases i with
    | zero => simp [List.getD]
    | succ i =>
      rw [List.map_cons, List.getD_cons_succ, List.getD_cons_succ]
      exact ih i (by simpa using h)

/-- Claim C7: after `louvainCommunityExistsW` computes the existence flags
and `louvainRenumberCommunitiesW` rewrites `vcom` through their exclusive
prefix sum, the labels of the vertices form exactly the contiguous range
`[0, C)`, where `C` is the returned number of nonempty communities (both
routines return the same `C`), and two vertices share a label afterwards if
and only if they shared one before. -/
theorem louvainRenumberCommunitiesW_contiguous (x : EGraph) (vcom : List Nat)
    (hlen : x.span ≤ vcom.length)
    (hb : ∀ u, u < x.span → vcom.getD u 0 < x.span) :
    (∀ u, u < x.span →
      (louvainRenumberCommunitiesW vcom
        (louvainCommunityExistsW x.span x vcom).1).1.getD u 0 <
        (louvainCommunityExistsW x.span x vcom).2) ∧
    (∀ k, k < (louvainCommunityExistsW x.span x vcom).2 →
      ∃ u, u < x.span ∧
        (louvainRenumberCommunitiesW vcom
          (louvainCommunityExistsW x.span x vcom).1).1.getD u 0 = k) ∧
    (∀ u v, u < x.span → v < x.span →
      ((louvainRenumberCommunitiesW vcom
          (louvainCommunityExistsW x.span x vcom).1).1.getD u 0 =
        (louvainRenumberCommunitiesW vcom
          (louvainCommunityExistsW x.span x vcom).1).1.getD v 0 ↔
        vcom.getD u 0 = vcom.getD v 0)) ∧
    (louvainRenumberCommunitiesW vcom
      (louvainCommunityExistsW x.span x vcom).1).2.2 =
      (louvainCommunityExistsW x.span x vcom).2 := by
  obtain ⟨hf, hcnt, hflen⟩ := communityExistsFold_spec x.span vcom x.span hb
  have hf' : ∀ c, (louvainCommunityExistsW x.span x vcom).1.getD c 0 =
      if c ∈ (Finset.range x.span).image (fun u => vcom.getD u 0) then 1 else 0 := hf
  have hcnt' : (louvainCommunityExistsW x.span x vcom).2 =
      ((Finset.range x.span).image (fun u => vcom.getD u 0)).card := hcnt
  have hflen' : (louvainCommunityExistsW x.span x vcom).1.length = x.span := hflen
  have hrn1 : (louvainRenumberCommunitiesW vcom
      (louvainCommunityExistsW x.span x vcom).1).1 =
      vcom.map (fun v =>
        (scanAux (louvainCommunityExistsW x.span x vcom).1 0).getD v 0) := by
    unfold louvainRenumberCommunitiesW louvainLookupCommunitiesU
    rw [exclusiveScanW_eq]
  have hrank : ∀ c, c < x.span →
      (scanAux (louvainCommunityExistsW x.span x vcom).1 0).getD c 0 =
        (((Finset.range x.span).image (fun u => vcom.getD u 0)).filter
          (fun x' => x' < c)).card := by
    intro c hc
    rw [scanAux_getD _ 0 c (by rw [hflen']; exact hc), Nat.zero_add,
      take_sum_getD _ c (by rw [hflen']; exact Nat.le_of_lt hc),
      Finset.sum_congr rfl (fun j _ => hf' j),
      ← Finset.card_filter (fun j => j ∈ (Finset.range x.span).image
        (fun u => vcom.getD u 0)) (Finset.range c)]
    congr 1
    ext j
    rw [Finset.mem_filter, Finset.mem_filter, Finset.mem_range]
    exact ⟨fun ⟨hjc, hjE⟩ => ⟨hjE, hjc⟩, fun ⟨hjE, hjc⟩ => ⟨hjc, hjE⟩⟩
  have hval : ∀ u, u < x.span →
      (louvainRenumberCommunitiesW vcom
        (louvainCommunityExistsW x.span x vcom).1).1.getD u 0 =
        (((Finset.range x.span).image (fun w => vcom.getD w 0)).filter
          (fun x' => x' < vcom.getD u 0)).card := by
    intro u hu
    rw [hrn1, getD_map_lt vcom _ u (Nat.lt_of_lt_of_le hu hlen),
      hrank (vcom.getD u 0) (hb u hu)]
  have hmem : ∀ u, u < x.span →
      vcom.getD u 0 ∈ (Finset.range x.span).image (fun w => vcom.getD w 0) :=
    fun u hu => Finset.mem_image.mpr ⟨u, Finset.mem_range.mpr hu, rfl⟩
  refine ⟨?_, ?_, ?_, ?_⟩
  · intro u hu
    rw [hval u hu, hcnt']
    exact rank_lt_card (hmem u hu)
  · intro k hk
    rw [hcnt'] at hk
    obtain ⟨c, hcE, hcrank⟩ :=
      rank_surj k ((Finset.range x.span).image (fun w => vcom.getD w 0)) hk
    obtain ⟨u, hu, hvu⟩ := Finset.mem_image.mp hcE
    refine ⟨u, Finset.mem_range.mp hu, ?_⟩
    rw [hval u (Finset.mem_range.mp hu), hvu, hcrank]
  · intro u v hu hv
    rw [hval u hu, hval v hv]
    constructor
    · exact fun h => rank_inj (hmem u hu) (hmem v hv) h
    · intro h
      rw [h]
  · have hrn2 : (louvainRenumberCommunitiesW vcom
        (louvainCommunityExistsW x.span x vcom).1).2.2 =
        (louvainCommunityExistsW x.span x vcom).1.sum := by
      unfold louvainRenumberCommunitiesW
      rw [exclusiveScanW_eq]
    rw [hrn2, hcnt']
    have htake : ∀ (l : List Nat), l.length = x.span →
        l.sum = (l.take x.span).sum := by
      intro l hl
      rw [← hl, List.take_length]
    rw [htake _ hflen', take_sum_getD _ x.span (by rw [hflen']),
      Finset.sum_congr rfl (fun j _ => hf' j),
      ← Finset.card_filter (fun j => j ∈ (Finset.range x.span).image
        (fun u => vcom.getD u 0)) (Finset.range x.span)]
    congr 1
    ext j
    rw [Finset.mem_filter, Finset.mem_range]
    constructor
    · exact fun ⟨_, hjE⟩ => hjE
    · intro hjE
      obtain ⟨u, hu, hvu⟩ := Finset.mem_image.mp hjE
      exact ⟨hvu ▸ hb u (Finset.mem_range.mp hu), hjE⟩

/-- Witness for claim C7 at a concrete state: `exK2` with both vertices in
community `1`. -/
theorem louvainRenumberCommunitiesW_contiguous_witness :
    (exK2.span ≤ ([1, 1] : List Nat).length ∧
      (∀ u, u < exK2.span → ([1, 1] : List Nat).getD u 0 < exK2.span)) ∧
    ((∀ u, u < exK2.span →
      (louvainRenumberCommunitiesW [1, 1]
        (louvainCommunityExistsW exK2.span exK2 [1, 1]).1).1.getD u 0 <
        (louvainCommunityExistsW exK2.span exK2 [1, 1]).2) ∧
    (∀ k, k < (louvainCommunityExistsW exK2.span exK2 [1, 1]).2 →
      ∃ u, u < exK2.span ∧
        (louvainRenumberCommunitiesW [1, 1]
          (louvainCommunityExistsW exK2.span exK2 [1, 1]).1).1.getD u 0 = k) ∧
    (∀ u v, u < exK2.span → v < exK2.span →
      ((louvainRenumberCommunitiesW [1, 1]
          (louvainCommunityExistsW exK2.span exK2 [1, 1]).1).1.getD u 0 =
        (louvainRenumberCommunitiesW [1, 1]
          (louvainCommunityExistsW exK2.span exK2 [1, 1]).1).1.getD v 0 ↔
        ([1, 1] : List Nat).getD u 0 = ([1, 1] : List Nat).getD v 0)) ∧
    (louvainRenumberCommunitiesW [1, 1]
      (louvainCommunityExistsW exK2.span exK2 [1, 1]).1).2.2 =
      (louvainCommunityExistsW exK2.span exK2 [1, 1]).2) :=
  ⟨⟨by with_unfolding_all decide, by with_unfolding_all decide⟩,
    louvainRenumberCommunitiesW_contiguous exK2 [1, 1]
      (by with_unfolding_all decide) (by with_unfolding_all decide)⟩

/-! ### Claim C8: community-vertex CSR machinery -/

/-- Two lists with equal lengths and equal reads are equal. -/
theorem list_ext_getD {l1 l2 : List Nat} (h : l1.length = l2.length)
    (hg : ∀ i, i < l1.length → l1.getD i 0 = l2.getD i 0) : l1 = l2 := by
  induction l1 generalizing l2 with
  | nil =>
    cases l2 with
    | nil => rfl
    | cons b t => simp at h
  | cons a t ih =>
    cases l2 with
    | nil => simp at h
    | cons b t2 =>
      have h0 := hg 0 (by simp)
      simp only [List.getD_cons_zero] at h0
      rw [h0, ih (by simpa using h) (fun i hi => hg (i + 1) (by simpa using hi))]

/-- Reading a dropped list. -/
theorem getD_drop (l : List Nat) : ∀ (a i : Nat), (l.drop a).getD i 0 = l.getD (a + i) 0 := by
  induction l with
  | nil => intro a i; simp
  | cons x t ih =>
    intro a i
    cases a with
    | zero => simp
    | succ a =>
      rw [List.drop_succ_cons, ih a i, Nat.succ_add, List.getD_cons_succ]

/-- Reading a taken prefix inside its bounds. -/
theorem getD_take (l : List Nat) : ∀ (b i : Nat), i < b → (l.take b).getD i 0 = l.getD i 0 := by
  induction l with
  | nil => intro b i _; simp
  | cons x t ih =>
    intro b i hib
    cases b with
    | zero => simp at hib
    | succ b =>
      cases i with
      | zero => simp
      | succ i =>
        rw [List.take_succ_cons, List.getD_cons_succ, List.getD_cons_succ]
        exact ih b i (by simpa using hib)

/-- Reading an appended list inside the first part. -/
theorem getD_append_left {α : Type} (l1 l2 : List α) (d : α) :
    ∀ i, i < l1.length → (l1 ++ l2).getD i d = l1.getD i d := by
  induction l1 with
  | nil => intro i hi; simp at hi
  | cons x t ih =>
    intro i hi
    cases i with
    | zero => simp
    | succ i =>
      rw [List.cons_append, List.getD_cons_succ, List.getD_cons_succ]
      exact ih i (by simpa using hi)

/-- Reading the singleton appended right after a list. -/
theorem getD_append_self {α : Type} (l : List α) (a d : α) :
    (l ++ [a]).getD l.length d = a := by
  induction l with
  | nil => rfl
  | cons x t ih =>
    rw [List.cons_append, List.length_cons, List.getD_cons_succ, ih]

/-- Length of a `List.range` filter as a `Finset` filter cardinality. -/
theorem length_filter_range (p : Nat → Prop) [DecidablePred p] :
    ∀ n, ((List.range n).filter (fun u => decide (p u))).length =
      ((Finset.range n).filter p).card := by
  intro n
  induction n with
  | zero => simp
  | succ n ih =>
    rw [List.range_succ, List.filter_append, List.length_append,
      Finset.range_succ, Finset.filter_insert]
    by_cases hp : p n
    · rw [if_pos hp, Finset.card_insert_of_not_mem (by simp), ← ih]
      simp [hp]
    · rw [if_neg hp, ← ih]
      simp [hp]

/-- The fibre counts over the first `m` vertices computed by
`louvainCountCommunityVerticesW`-style folds. -/
theorem countFold_getD (C : Nat) (vcom : List Nat) :
    ∀ (m : Nat), (∀ u, u < m → vcom.getD u 0 < C) →
      (∀ c, ((List.range m).foldl
        (fun a u => a.set (vcom.getD u 0) (a.getD (vcom.getD u 0) 0 + 1))
        (List.replicate (C + 1) 0)).getD c 0 =
          ((List.range m).filter (fun u => vcom.getD u 0 = c)).length) ∧
      ((List.range m).foldl
        (fun a u => a.set (vcom.getD u 0) (a.getD (vcom.getD u 0) 0 + 1))
        (List.replicate (C + 1) 0)).length = C + 1 := by
  intro m
  induction m with
  | zero =>
    intro _
    refine ⟨fun c => ?_, by simp⟩
    simp [getD_replicate]
  | succ m ih =>
    intro hb
    obtain ⟨ih1, ihl⟩ := ih (fun u hu => hb u (Nat.lt_succ_of_lt hu))
    rw [List.range_succ, List.foldl_append, List.foldl_cons, List.foldl_nil]
    refine ⟨fun c => ?_, by simpa using ihl⟩
    rw [List.filter_append]
    by_cases hc : vcom.getD m 0 = c
    · subst hc
      rw [getD_set_same _ _ _ _
        (by rw [ihl]; exact Nat.lt_succ_of_lt (hb m (Nat.lt_succ_self m))), ih1]
      simp
    · rw [getD_set_other _ _ _ _ _ hc, ih1 c]
      simp only [List.filter_cons, List.filter_nil, decide_eq_true_eq, if_neg hc]
      simp

/-- With all labels below `C`, the fibre counts sum to the vertex count. -/
theorem sum_fiber_lengths (n C : Nat) (vcom : List Nat)
    (hb : ∀ u, u < n → vcom.getD u 0 < C) :
    ∑ j ∈ Finset.range C,
      ((List.range n).filter (fun u => vcom.getD u 0 = j)).length = n := by
  have hpart : ∑ j ∈ Finset.range C,
      ((List.range n).filter (fun u => vcom.getD u 0 = j)).length =
      ∑ j ∈ Finset.range C,
        ((Finset.range n).filter (fun u => vcom.getD u 0 = j)).card :=
    Finset.sum_congr rfl (fun j _ => length_filter_range (fun u => vcom.getD u 0 = j) n)
  rw [hpart]
  have hfib : ∑ j ∈ Finset.range C,
      ((Finset.range n).filter (fun u => vcom.getD u 0 = j)).card =
      ∑ j ∈ Finset.range C,
        ∑ _u ∈ (Finset.range n).filter (fun u => vcom.getD u 0 = j), 1 :=
    Finset.sum_congr rfl (fun j _ => Finset.card_eq_sum_ones _)
  rw [hfib, Finset.sum_fiberwise_of_maps_to
    (fun u hu => Finset.mem_range.mpr (hb u (Finset.mem_range.mp hu))) (fun _ => 1)]
  simp

/-- Prefix filters extend to full filters. -/
theorem filter_range_prefix_agree (p : Nat → Bool) (m n : Nat) (h : m ≤ n) :
    ((List.range m).filter p).length ≤ ((List.range n).filter p).length ∧
    (∀ i, i < ((List.range m).filter p).length →
      ((List.range n).filter p).getD i 0 = ((List.range m).filter p).getD i 0) := by
  obtain ⟨d, rfl⟩ := Nat.exists_eq_add_of_le h
  rw [List.range_add, List.filter_append]
  exact ⟨by simp, fun i hi => getD_append_left _ _ _ i hi⟩

/-- Invariant of the vertex-scatter fold of `louvainCommunityVerticesW` after
the first `m` vertices: `coff` is untouched, `cdeg` holds the prefix fibre
counts, and each community's slice of `cedg` holds the prefix fibre in
vertex order. -/
theorem scatterFold_spec (n C : Nat) (vcom coff : List Nat)
    (hb : ∀ u, u < n → vcom.getD u 0 < C)
    (hcoff : ∀ c, c ≤ C → coff.getD c 0 =
      ∑ j ∈ Finset.range c,
        ((List.range n).filter (fun u => vcom.getD u 0 = j)).length) :
    ∀ m, m ≤ n →
      ((List.range m).foldl
        (fun (p : List Nat × List Nat × List Nat) u =>
          (p.1, p.2.1.set (vcom.getD u 0) (p.2.1.getD (vcom.getD u 0) 0 + 1),
            p.2.2.set (p.1.getD (vcom.getD u 0) 0 + p.2.1.getD (vcom.getD u 0) 0) u))
        (coff, List.replicate (C + 1) 0, List.replicate n 0)).1 = coff ∧
      (∀ c, ((List.range m).foldl
        (fun (p : List Nat × List Nat × List Nat) u =>
          (p.1, p.2.1.set (vcom.getD u 0) (p.2.1.getD (vcom.getD u 0) 0 + 1),
            p.2.2.set (p.1.getD (vcom.getD u 0) 0 + p.2.1.getD (vcom.getD u 0) 0) u))
        (coff, List.replicate (C + 1) 0, List.replicate n 0)).2.1.getD c 0 =
          ((List.range m).filter (fun u => vcom.getD u 0 = c)).length) ∧
      ((List.range m).foldl
        (fun (p : List Nat × List Nat × List Nat) u =>
          (p.1, p.2.1.set (vcom.getD u 0) (p.2.1.getD (vcom.getD u 0) 0 + 1),
            p.2.2.set (p.1.getD (vcom.getD u 0) 0 + p.2.1.getD (vcom.getD u 0) 0) u))
        (coff, List.replicate (C + 1) 0, List.replicate n 0)).2.1.length = C + 1 ∧
      ((List.range m).foldl
        (fun (p : List Nat × List Nat × List Nat) u =>
          (p.1, p.2.1.set (vcom.getD u 0) (p.2.1.getD (vcom.getD u 0) 0 + 1),
            p.2.2.set (p.1.getD (vcom.getD u 0) 0 + p.2.1.getD (vcom.getD u 0) 0) u))
        (coff, List.replicate (C + 1) 0, List.replicate n 0)).2.2.length = n ∧
      (∀ c, c < C →
        ∀ i, i < ((List.range m).filter (fun u => vcom.getD u 0 = c)).length →
        ((List.range m).foldl
          (fun (p : List Nat × List Nat × List Nat) u =>
            (p.1, p.2.1.set (vcom.getD u 0) (p.2.1.getD (vcom.getD u 0) 0 + 1),
              p.2.2.set (p.1.getD (vcom.getD u 0) 0 + p.2.1.getD (vcom.getD u 0) 0) u))
          (coff, List.replicate (C + 1) 0, List.replicate n 0)).2.2.getD
            (coff.getD c 0 + i) 0 =
          ((List.range m).filter (fun u => vcom.getD u 0 = c)).getD i 0) := by
  have cntF_C : ((List.range n).filter (fun u => vcom.getD u 0 = C)).length = 0 := by
    rw [List.length_eq_zero, List.filter_eq_nil_iff]
    intro u hu
    simp only [decide_eq_true_eq]
    exact Nat.ne_of_lt (hb u (List.mem_range.mp hu))
  have hmono : ∀ c c', c ≤ c' → c' ≤ C → coff.getD c 0 ≤ coff.getD c' 0 := by
    intro c c' hcc hc'
    rw [hcoff c (Nat.le_trans hcc hc'), hcoff c' hc']
    exact Finset.sum_le_sum_of_subset (Finset.range_subset.mpr hcc)
  have hposB : ∀ c, c < C → ∀ i,
      i < ((List.range n).filter (fun u => vcom.getD u 0 = c)).length →
      coff.getD c 0 + i < coff.getD (c + 1) 0 := by
    intro c hc i hi
    rw [hcoff c (Nat.le_of_lt hc), hcoff (c + 1) hc, Finset.sum_range_succ]
    omega
  have hposN : ∀ c, c < C → coff.getD (c + 1) 0 ≤ n := by
    intro c hc
    have h1 : coff.getD (c + 1) 0 ≤ coff.getD C 0 := hmono (c + 1) C hc (Nat.le_refl C)
    have h2 : coff.getD C 0 ≤ n := by
      rw [hcoff C (Nat.le_refl C), sum_fiber_lengths n C vcom hb]
    exact Nat.le_trans h1 h2
  intro m
  induction m with
  | zero =>
    intro _
    refine ⟨rfl, fun c => ?_, by simp, by simp, fun c _ i hi => by simp at hi⟩
    simp [getD_replicate]
  | succ m ih =>
    intro hm
    obtain ⟨ihcoff, ihdeg, ihdlen, ihelen, ihslice⟩ := ih (Nat.le_of_succ_le hm)
    rw [List.range_succ, List.foldl_append, List.foldl_cons, List.foldl_nil]
    rw [ihcoff]
    have hcm : vcom.getD m 0 < C := hb m (Nat.lt_of_succ_le hm)
    have hfm : ∀ c, (List.filter (fun u => decide (vcom.getD u 0 = c)) [m]) =
        if vcom.getD m 0 = c then [m] else [] := by
      intro c
      rw [List.filter_cons, List.filter_nil]
      by_cases hc : vcom.getD m 0 = c
      · rw [if_pos (decide_eq_true hc), if_pos hc]
      · rw [if_neg (fun h => hc (of_decide_eq_true h)), if_neg hc]
    have hkF2 : ((List.range m).filter
        (fun u => vcom.getD u 0 = vcom.getD m 0)).length + 1 ≤
        ((List.range n).filter (fun u => vcom.getD u 0 = vcom.getD m 0)).length := by
      have h := (filter_range_prefix_agree
        (fun u => decide (vcom.getD u 0 = vcom.getD m 0)) (m + 1) n hm).1
      rw [List.range_succ, List.filter_append, List.length_append, hfm, if_pos rfl] at h
      simpa using h
    refine ⟨rfl, fun c => ?_, by simpa using ihdlen, by simpa using ihelen,
      fun c hc i hi => ?_⟩
    · dsimp only
      rw [List.filter_append, List.length_append, hfm c]
      by_cases hc : vcom.getD m 0 = c
      · subst hc
        rw [getD_set_same _ _ _ _ (by rw [ihdlen]; exact Nat.lt_succ_of_lt hcm), ihdeg,
          if_pos rfl]
        simp
      · rw [getD_set_other _ _ _ _ _ hc, ihdeg c, if_neg hc]
        simp
    · rw [List.filter_append, hfm c] at hi ⊢
      dsimp only
      by_cases hceq : vcom.getD m 0 = c
      · subst hceq
        rw [if_pos rfl] at hi ⊢
        rw [List.length_append, List.length_singleton] at hi
        by_cases hik : i = ((List.range m).filter
            (fun u => vcom.getD u 0 = vcom.getD m 0)).length
        · rw [ihdeg (vcom.getD m 0), hik, getD_set_same _ _ _ _
            (by rw [ihelen]
                exact Nat.lt_of_lt_of_le
                  (hposB (vcom.getD m 0) hcm _ (by omega)) (hposN (vcom.getD m 0) hcm)),
            getD_append_self]
        · have hilt : i < ((List.range m).filter
              (fun u => vcom.getD u 0 = vcom.getD m 0)).length := by omega
          rw [ihdeg (vcom.getD m 0), getD_set_other _ _ _ _ _ (by omega),
            ihslice (vcom.getD m 0) hcm i hilt,
            getD_append_left _ _ _ i hilt]
      · rw [if_neg hceq, List.append_nil] at hi ⊢
        have hiF : i < ((List.range n).filter
            (fun u => vcom.getD u 0 = c)).length :=
          Nat.lt_of_lt_of_le hi (filter_range_prefix_agree _ m n
            (Nat.le_trans (Nat.le_succ m) hm)).1
        have hne : coff.getD (vcom.getD m 0) 0 + ((List.range m).filter
            (fun u => vcom.getD u 0 = vcom.getD m 0)).length ≠ coff.getD c 0 + i := by
          rcases Nat.lt_or_ge c (vcom.getD m 0) with hlt | hge
          · have h1 : coff.getD c 0 + i < coff.getD (c + 1) 0 := hposB c hc i hiF
            have h2 : coff.getD (c + 1) 0 ≤ coff.getD (vcom.getD m 0) 0 :=
              hmono (c + 1) (vcom.getD m 0) hlt (Nat.le_of_lt hcm)
            omega
          · have hlt2 : vcom.getD m 0 < c := Nat.lt_of_le_of_ne hge hceq
            have h1 : coff.getD (vcom.getD m 0) 0 + ((List.range m).filter
                (fun u => vcom.getD u 0 = vcom.getD m 0)).length <
                coff.getD (vcom.getD m 0 + 1) 0 :=
              hposB (vcom.getD m 0) hcm _ (by omega)
            have h2 : coff.getD (vcom.getD m 0 + 1) 0 ≤ coff.getD c 0 :=
              hmono (vcom.getD m 0 + 1) c hlt2 (Nat.le_of_lt hc)
            omega
        rw [ihdeg (vcom.getD m 0), getD_set_other _ _ _ _ _ hne, ihslice c hc i hi]

/-- Shared description of `louvainCommunityVerticesW`: `coff[C]` is the
vertex count and each community's slice is its fibre in vertex order. -/
theorem louvainCommunityVerticesW_slices (C : Nat) (x : EGraph)
    (vcom : List Nat) (hb : ∀ u, u < x.span → vcom.getD u 0 < C) :
    (louvainCommunityVerticesW C x vcom).1.getD C 0 = x.span ∧
    (∀ c, c < C →
      csrSlice (louvainCommunityVerticesW C x vcom).1
        (louvainCommunityVerticesW C x vcom).2.2 c =
        (List.range x.span).filter (fun u => vcom.getD u 0 = c)) ∧
    (∀ u, u < x.span → ∀ c, c < C →
      (u ∈ csrSlice (louvainCommunityVerticesW C x vcom).1
        (louvainCommunityVerticesW C x vcom).2.2 c ↔ vcom.getD u 0 = c)) := by
  have hcnt := countFold_getD C vcom x.span (fun u hu => hb u hu)
  have hcnt1 : ∀ c, (louvainCountCommunityVerticesW C x vcom).getD c 0 =
      ((List.range x.span).filter (fun u => vcom.getD u 0 = c)).length := hcnt.1
  have hcntlen : (louvainCountCommunityVerticesW C x vcom).length = C + 1 := hcnt.2
  have hcntC : ((List.range x.span).filter
      (fun u => vcom.getD u 0 = C)).length = 0 := by
    rw [List.length_eq_zero, List.filter_eq_nil_iff]
    intro u hu
    simp only [decide_eq_true_eq]
    exact Nat.ne_of_lt (hb u (List.mem_range.mp hu))
  have hscan := exclusiveScanW_eq (louvainCountCommunityVerticesW C x vcom)
  have hslen : (scanAux (louvainCountCommunityVerticesW C x vcom) 0).length = C + 1 := by
    rw [scanAux_length, hcntlen]
  have hcoffD : ∀ c, c ≤ C →
      ((scanAux (louvainCountCommunityVerticesW C x vcom) 0).set C
        (louvainCountCommunityVerticesW C x vcom).sum).getD c 0 =
      ∑ j ∈ Finset.range c,
        ((List.range x.span).filter (fun u => vcom.getD u 0 = j)).length := by
    intro c hc
    rcases Nat.lt_or_ge c C with hlt | hge
    · rw [getD_set_other _ _ _ _ _ (Nat.ne_of_gt hlt),
        scanAux_getD _ 0 c (by rw [hcntlen]; omega), Nat.zero_add,
        take_sum_getD _ c (by rw [hcntlen]; omega)]
      exact Finset.sum_congr rfl (fun j _ => hcnt1 j)
    · have hceq : c = C := Nat.le_antisymm hc hge
      rw [hceq, getD_set_same _ _ _ _ (by rw [hslen]; omega)]
      have htk : (louvainCountCommunityVerticesW C x vcom).sum =
          ((louvainCountCommunityVerticesW C x vcom).take (C + 1)).sum := by
        rw [List.take_of_length_le (by rw [hcntlen])]
      rw [htk, take_sum_getD _ (C + 1) (by rw [hcntlen]),
        Finset.sum_congr rfl (fun j _ => hcnt1 j), Finset.sum_range_succ, hcntC,
        Nat.add_zero]
  have hres := scatterFold_spec x.span C vcom
    ((scanAux (louvainCountCommunityVerticesW C x vcom) 0).set C
      (louvainCountCommunityVerticesW C x vcom).sum) hb hcoffD x.span (Nat.le_refl _)
  have hdef : louvainCommunityVerticesW C x vcom =
      (List.range x.span).foldl
        (fun (p : List Nat × List Nat × List Nat) u =>
          (p.1, p.2.1.set (vcom.getD u 0) (p.2.1.getD (vcom.getD u 0) 0 + 1),
            p.2.2.set (p.1.getD (vcom.getD u 0) 0 + p.2.1.getD (vcom.getD u 0) 0) u))
        ((scanAux (louvainCountCommunityVerticesW C x vcom) 0).set C
          (louvainCountCommunityVerticesW C x vcom).sum,
          List.replicate (C + 1) 0, List.replicate x.span 0) := by
    unfold louvainCommunityVerticesW
    dsimp only
    rw [hscan]
  have hcoff1 : (louvainCommunityVerticesW C x vcom).1 =
      (scanAux (louvainCountCommunityVerticesW C x vcom) 0).set C
        (louvainCountCommunityVerticesW C x vcom).sum := by
    rw [hdef]
    exact hres.1
  have hedg : ∀ c, c < C →
      ∀ i, i < ((List.range x.span).filter (fun u => vcom.getD u 0 = c)).length →
      (louvainCommunityVerticesW C x vcom).2.2.getD
        (((scanAux (louvainCountCommunityVerticesW C x vcom) 0).set C
          (louvainCountCommunityVerticesW C x vcom).sum).getD c 0 + i) 0 =
        ((List.range x.span).filter (fun u => vcom.getD u 0 = c)).getD i 0 := by
    intro c hc i hi
    rw [hdef]
    exact hres.2.2.2.2 c hc i hi
  have helen : (louvainCommunityVerticesW C x vcom).2.2.length = x.span := by
    rw [hdef]
    exact hres.2.2.2.1
  have htotal := sum_fiber_lengths x.span C vcom hb
  have hcoffC : (louvainCommunityVerticesW C x vcom).1.getD C 0 = x.span := by
    rw [hcoff1, hcoffD C (Nat.le_refl C), htotal]
  have hub : ∀ c, c < C →
      ((scanAux (louvainCountCommunityVerticesW C x vcom) 0).set C
        (louvainCountCommunityVerticesW C x vcom).sum).getD (c + 1) 0 ≤ x.span := by
    intro c hc
    rw [hcoffD (c + 1) hc]
    calc ∑ j ∈ Finset.range (c + 1),
          ((List.range x.span).filter (fun u => vcom.getD u 0 = j)).length
        ≤ ∑ j ∈ Finset.range C,
          ((List.range x.span).filter (fun u => vcom.getD u 0 = j)).length :=
          Finset.sum_le_sum_of_subset (Finset.range_subset.mpr hc)
      _ = x.span := htotal
  have hdiff : ∀ c, c < C →
      ((scanAux (louvainCountCommunityVerticesW C x vcom) 0).set C
        (louvainCountCommunityVerticesW C x vcom).sum).getD (c + 1) 0 =
      ((scanAux (louvainCountCommunityVerticesW C x vcom) 0).set C
        (louvainCountCommunityVerticesW C x vcom).sum).getD c 0 +
      ((List.range x.span).filter (fun u => vcom.getD u 0 = c)).length := by
    intro c hc
    rw [hcoffD (c + 1) hc, hcoffD c (Nat.le_of_lt hc), Finset.sum_range_succ]
  have hslices : ∀ c, c < C →
      csrSlice (louvainCommunityVerticesW C x vcom).1
        (louvainCommunityVerticesW C x vcom).2.2 c =
        (List.range x.span).filter (fun u => vcom.getD u 0 = c) := by
    intro c hc
    unfold csrSlice
    rw [hcoff1, hdiff c hc, Nat.add_sub_cancel_left]
    have hlen : (((louvainCommunityVerticesW C x vcom).2.2.drop
        (((scanAux (louvainCountCommunityVerticesW C x vcom) 0).set C
          (louvainCountCommunityVerticesW C x vcom).sum).getD c 0)).take
        (((List.range x.span).filter (fun u => vcom.getD u 0 = c)).length)).length =
        ((List.range x.span).filter (fun u => vcom.getD u 0 = c)).length := by
      rw [List.length_take, List.length_drop, helen]
      have h1 := hdiff c hc
      have h2 := hub c hc
      omega
    refine list_ext_getD hlen (fun i hi => ?_)
    rw [hlen] at hi
    rw [getD_take _ _ _ hi, getD_drop, hedg c hc i hi]
  refine ⟨hcoffC, hslices, fun u hu c hc => ?_⟩
  rw [hslices c hc, List.mem_filter, List.mem_range, decide_eq_true_eq]
  exact ⟨fun h => h.2, fun h => ⟨hu, h⟩⟩

/-- Claim C8: for a community assignment with labels in `[0, C)`,
`louvainCommunityVerticesW` builds a CSR with `coff[C]` equal to the number
of vertices, and for each community `c` the slice `cedg[coff[c]..coff[c+1])`
is exactly the list of vertices with `vcom[u] = c` in vertex order (hence a
permutation of `{u : vcom[u] = c}`); consequently every vertex appears in
exactly one bucket, the one indexed by its `vcom[u]`. -/
theorem louvainCommunityVerticesW_partition (C : Nat) (x : EGraph)
    (vcom : List Nat) (hb : ∀ u, u < x.span → vcom.getD u 0 < C) :
    (louvainCommunityVerticesW C x vcom).1.getD C 0 = x.span ∧
    (∀ c, c < C →
      csrSlice (louvainCommunityVerticesW C x vcom).1
        (louvainCommunityVerticesW C x vcom).2.2 c =
        (List.range x.span).filter (fun u => vcom.getD u 0 = c)) ∧
    (∀ u, u < x.span → ∀ c, c < C →
      (u ∈ csrSlice (louvainCommunityVerticesW C x vcom).1
        (louvainCommunityVerticesW C x vcom).2.2 c ↔ vcom.getD u 0 = c)) :=
  louvainCommunityVerticesW_slices C x vcom hb

/-- Witness for claim C8 at a concrete state: `exK2` with `vcom = [1, 0]`
and `C = 2`. -/
theorem louvainCommunityVerticesW_partition_witness :
    (∀ u, u < exK2.span → ([1, 0] : List Nat).getD u 0 < 2) ∧
    ((louvainCommunityVerticesW 2 exK2 [1, 0]).1.getD 2 0 = exK2.span ∧
    (∀ c, c < 2 →
      csrSlice (louvainCommunityVerticesW 2 exK2 [1, 0]).1
        (louvainCommunityVerticesW 2 exK2 [1, 0]).2.2 c =
        (List.range exK2.span).filter (fun u => ([1, 0] : List Nat).getD u 0 = c)) ∧
    (∀ u, u < exK2.span → ∀ c, c < 2 →
      (u ∈ csrSlice (louvainCommunityVerticesW 2 exK2 [1, 0]).1
        (louvainCommunityVerticesW 2 exK2 [1, 0]).2.2 c ↔
        ([1, 0] : List Nat).getD u 0 = c))) :=
  ⟨by with_unfolding_all decide,
    louvainCommunityVerticesW_partition 2 exK2 [1, 0] (by with_unfolding_all decide)⟩


/-! ### Claim C5: aggregation machinery -/

/-- Total weight of the edges of `E` whose target lies in community `d`. -/
def wsum (vcom : List Nat) (E : List (Nat × W)) (d : Nat) : W :=
  ((E.filter (fun e => vcom.getD e.1 0 = d)).map (fun e => e.2)).sum

/-- Total weight carried by the entries of a row that point at `d`. -/
def rowWeightTo (row : List (Nat × W)) (d : Nat) : W :=
  ((row.filter (fun e => e.1 = d)).map (fun e => e.2)).sum

/-- One `louvainScanCommunityW` call with `SELF = true`, as a step function
on the scratch pair (the vertex argument is then irrelevant). -/
def scanStep (vcom : List Nat) (p : List Nat × List W) (e : Nat × W) :
    List Nat × List W :=
  ((if p.2.getD (vcom.getD e.1 0) 0 = 0 then p.1 ++ [vcom.getD e.1 0] else p.1),
    p.2.set (vcom.getD e.1 0) (p.2.getD (vcom.getD e.1 0) 0 + e.2))

/-- Scanning one vertex's edges with `SELF = true` is the `scanStep` fold of
its edge list. -/
theorem scanCommunitiesW_true_eq (vcs : List Nat) (vcout : List W)
    (x : EGraph) (u : Nat) (vcom : List Nat) :
    louvainScanCommunitiesW true vcs vcout x u vcom =
      (x.edges u).foldl (scanStep vcom) (vcs, vcout) := rfl

theorem wsum_nil (vcom : List Nat) (d : Nat) : wsum vcom [] d = 0 := rfl

theorem wsum_cons (vcom : List Nat) (e : Nat × W) (E : List (Nat × W)) (d : Nat) :
    wsum vcom (e :: E) d =
      (if vcom.getD e.1 0 = d then e.2 else 0) + wsum vcom E d := by
  unfold wsum
  rw [List.filter_cons]
  by_cases h : vcom.getD e.1 0 = d
  · rw [if_pos (decide_eq_true h), List.map_cons, List.sum_cons, if_pos h]
  · rw [if_neg (fun hh => h (of_decide_eq_true hh)), if_neg h, zero_add]

theorem wsum_append (vcom : List Nat) (E1 E2 : List (Nat × W)) (d : Nat) :
    wsum vcom (E1 ++ E2) d = wsum vcom E1 d + wsum vcom E2 d := by
  unfold wsum
  rw [List.filter_append, List.map_append, List.sum_append]

theorem wsum_nonneg (vcom : List Nat) (E : List (Nat × W))
    (hpos : ∀ e ∈ E, 0 < e.2) (d : Nat) : 0 ≤ wsum vcom E d := by
  induction E with
  | nil => exact le_refl 0
  | cons e t ih =>
    rw [wsum_cons]
    have h1 : (0 : W) ≤ if vcom.getD e.1 0 = d then e.2 else 0 := by
      by_cases h : vcom.getD e.1 0 = d
      · rw [if_pos h]; exact le_of_lt (hpos e (List.mem_cons_self e t))
      · rw [if_neg h]
    have h2 := ih (fun e' he' => hpos e' (List.mem_cons_of_mem e he'))
    exact add_nonneg h1 h2

/-- Scanning a list of vertices with `SELF = true` is the `scanStep` fold of
the concatenation of their edge lists. -/
theorem scan_members_join (x : EGraph) (vcom : List Nat) (members : List Nat) :
    ∀ s : List Nat × List W,
      members.foldl (fun p u => louvainScanCommunitiesW true p.1 p.2 x u vcom) s =
        ((members.map (fun u => x.edges u)).flatten).foldl (scanStep vcom) s := by
  induction members with
  | nil => intro s; rfl
  | cons u rest ih =>
    intro s
    rw [List.foldl_cons, List.map_cons, List.flatten_cons, List.foldl_append, ← ih]
    rfl

/-- Core accumulation property of the `SELF = true` scan: starting from an
empty `vcs` and an all-zero `vcout`, after scanning an edge list with
strictly positive weights, `vcout[d]` is the total weight into community
`d`, and `vcs` lists exactly the communities with nonzero totals, without
duplicates. -/
theorem scanStep_foldl_spec (vcom : List Nat) (L : Nat) (z : List W)
    (hzlen : z.length = L) (hz : ∀ d, z.getD d 0 = 0) :
    ∀ (E : List (Nat × W)), (∀ e ∈ E, 0 < e.2 ∧ vcom.getD e.1 0 < L) →
      (E.foldl (scanStep vcom) ([], z)).2.length = L ∧
      (∀ d, (E.foldl (scanStep vcom) ([], z)).2.getD d 0 = wsum vcom E d) ∧
      (E.foldl (scanStep vcom) ([], z)).1.Nodup ∧
      (∀ d, d ∈ (E.foldl (scanStep vcom) ([], z)).1 ↔ wsum vcom E d ≠ 0) := by
  intro E
  induction E using List.reverseRecOn with
  | nil =>
    intro _
    refine ⟨hzlen, fun d => ?_, List.nodup_nil, fun d => ?_⟩
    · rw [List.foldl_nil, hz d, wsum_nil]
    · rw [List.foldl_nil, wsum_nil]
      simp
  | append_singleton E e ih =>
    intro hE
    have hE' : ∀ e' ∈ E, 0 < e'.2 ∧ vcom.getD e'.1 0 < L :=
      fun e' he' => hE e' (List.mem_append_left _ he')
    have hepos : 0 < e.2 :=
      (hE e (List.mem_append_right _ (List.mem_singleton.mpr rfl))).1
    have heL : vcom.getD e.1 0 < L :=
      (hE e (List.mem_append_right _ (List.mem_singleton.mpr rfl))).2
    obtain ⟨ihlen, ihval, ihnodup, ihmem⟩ := ih hE'
    have hnonneg : ∀ d, 0 ≤ wsum vcom E d :=
      wsum_nonneg vcom E (fun e' he' => (hE' e' he').1) 
    rw [List.foldl_append, List.foldl_cons, List.foldl_nil]
    have hws : ∀ d, wsum vcom (E ++ [e]) d =
        wsum vcom E d + (if vcom.getD e.1 0 = d then e.2 else 0) := by
      intro d
      rw [wsum_append, wsum_cons, wsum_nil, add_zero, add_comm (wsum vcom E d)]
    set st := E.foldl (scanStep vcom) ([], z) with hst
    simp only [scanStep]
    by_cases h0 : st.2.getD (vcom.getD e.1 0) 0 = 0
    · have hze : wsum vcom E (vcom.getD e.1 0) = 0 := by rw [← ihval]; exact h0
      have hnm : vcom.getD e.1 0 ∉ st.1 := by
        rw [ihmem]
        exact fun h => h hze
      rw [if_pos h0]
      refine ⟨by simp [ihlen], fun d => ?_, ?_, fun d => ?_⟩
      · rw [hws d]
        by_cases hd : vcom.getD e.1 0 = d
        · rw [← hd, getD_set_same _ _ _ _ (by rw [ihlen]; exact heL), h0, hze,
            if_pos rfl, zero_add]
        · rw [getD_set_other _ _ _ _ _ hd, ihval d, if_neg hd, add_zero]
      · rw [List.nodup_append]
        exact ⟨ihnodup, List.nodup_singleton _, by
          intro a ha hb
          rw [List.mem_singleton] at hb
          exact hnm (hb ▸ ha)⟩
      · rw [List.mem_append, List.mem_singleton, hws d, ihmem d]
        by_cases hd : vcom.getD e.1 0 = d
        · rw [← hd, hze, if_pos rfl, zero_add]
          constructor
          · intro _
            exact ne_of_gt hepos
          · intro _
            exact Or.inr rfl
        · rw [if_neg hd, add_zero]
          constructor
          · rintro (h | h)
            · exact h
            · exact absurd h.symm hd
          · exact fun h => Or.inl h
    · have hze : wsum vcom E (vcom.getD e.1 0) ≠ 0 := by rw [← ihval]; exact h0
      have hm : vcom.getD e.1 0 ∈ st.1 := (ihmem _).mpr hze
      rw [if_neg h0]
      refine ⟨by simp [ihlen], fun d => ?_, ihnodup, fun d => ?_⟩
      · rw [hws d]
        by_cases hd : vcom.getD e.1 0 = d
        · rw [← hd, getD_set_same _ _ _ _ (by rw [ihlen]; exact heL), ihval, if_pos rfl]
        · rw [getD_set_other _ _ _ _ _ hd, ihval d, if_neg hd, add_zero]
      · rw [hws d, ihmem d]
        by_cases hd : vcom.getD e.1 0 = d
        · rw [← hd, if_pos rfl]
          have hpos : 0 < wsum vcom E (vcom.getD e.1 0) + e.2 :=
            add_pos_of_nonneg_of_pos (hnonneg _) hepos
          constructor
          · intro _
            exact ne_of_gt hpos
          · intro _
            exact hze
        · rw [if_neg hd, add_zero]

theorem rowWeightTo_nil (d : Nat) : rowWeightTo [] d = 0 := rfl

theorem rowWeightTo_cons (e : Nat × W) (row : List (Nat × W)) (d : Nat) :
    rowWeightTo (e :: row) d = (if e.1 = d then e.2 else 0) + rowWeightTo row d := by
  unfold rowWeightTo
  rw [List.filter_cons]
  by_cases h : e.1 = d
  · rw [if_pos (decide_eq_true h), List.map_cons, List.sum_cons, if_pos h]
  · rw [if_neg (fun hh => h (of_decide_eq_true hh)), if_neg h, zero_add]

/-- Weight of a scratch-derived row toward `d`: the accumulator value when
`d` was touched, `0` otherwise. -/
theorem rowWeightTo_map (g : Nat → W) (d : Nat) :
    ∀ (vcs : List Nat), vcs.Nodup →
      rowWeightTo (vcs.map (fun c => (c, g c))) d = if d ∈ vcs then g d else 0 := by
  intro vcs
  induction vcs with
  | nil => intro _; simp [rowWeightTo_nil]
  | cons c rest ih =>
    intro hnd
    rw [List.map_cons, rowWeightTo_cons, ih (List.Nodup.of_cons hnd)]
    by_cases hcd : c = d
    · rw [if_pos hcd, if_neg (fun hm => (List.nodup_cons.mp hnd).1 (hcd.symm ▸ hm)),
        add_zero, if_pos (List.mem_cons.mpr (Or.inl hcd.symm)), hcd]
    · rw [if_neg hcd, zero_add]
      by_cases hdm : d ∈ rest
      · rw [if_pos hdm, if_pos (List.mem_cons_of_mem c hdm)]
      · rw [if_neg hdm, if_neg (by
          rw [List.mem_cons]
          rintro (h | h)
          · exact hcd h.symm
          · exact hdm h)]

theorem sum_map_ite_mem (w : W) (c : Nat) :
    ∀ (vcs : List Nat), vcs.Nodup →
      (vcs.map (fun d => if c = d then w else 0)).sum = if c ∈ vcs then w else 0 := by
  intro vcs
  induction vcs with
  | nil => intro _; simp
  | cons d rest ih =>
    intro hnd
    rw [List.map_cons, List.sum_cons, ih (List.Nodup.of_cons hnd)]
    by_cases hcd : c = d
    · rw [if_pos hcd, if_neg (fun hm => (List.nodup_cons.mp hnd).1 (hcd ▸ hm)),
        add_zero, if_pos (List.mem_cons.mpr (Or.inl hcd))]
    · rw [if_neg hcd, zero_add]
      by_cases hcm : c ∈ rest
      · rw [if_pos hcm, if_pos (List.mem_cons_of_mem d hcm)]
      · rw [if_neg hcm, if_neg (by
          rw [List.mem_cons]
          rintro (h | h)
          · exact hcd h
          · exact hcm h)]

theorem sum_map_add_distrib (f g : Nat → W) :
    ∀ (l : List Nat), (l.map (fun d => f d + g d)).sum = (l.map f).sum + (l.map g).sum := by
  intro l
  induction l with
  | nil => simp
  | cons a t ih =>
    rw [List.map_cons, List.map_cons, List.map_cons, List.sum_cons, List.sum_cons,
      List.sum_cons, ih]
    ring

/-- Summing the accumulated totals over the touched communities recovers the
total weight of the scanned edges (for strictly positive weights). -/
theorem sum_map_wsum (vcom : List Nat) :
    ∀ (E : List (Nat × W)) (vcs : List Nat), vcs.Nodup →
      (∀ e ∈ E, 0 < e.2) → (∀ d, wsum vcom E d ≠ 0 → d ∈ vcs) →
      (vcs.map (fun d => wsum vcom E d)).sum = (E.map (fun e => e.2)).sum := by
  intro E
  induction E with
  | nil =>
    intro vcs _ _ _
    rw [List.map_congr_left (fun d _ => wsum_nil vcom d)]
    simp
  | cons e E' ih =>
    intro vcs hnd hpos hcover
    have hpos' : ∀ e' ∈ E', 0 < e'.2 := fun e' he' => hpos e' (List.mem_cons_of_mem e he')
    have hnn' := wsum_nonneg vcom E' hpos'
    have hcover' : ∀ d, wsum vcom E' d ≠ 0 → d ∈ vcs := by
      intro d hd
      refine hcover d ?_
      rw [wsum_cons]
      have h1 : (0 : W) < wsum vcom E' d := lt_of_le_of_ne (hnn' d) (Ne.symm hd)
      have h2 : (0 : W) ≤ if vcom.getD e.1 0 = d then e.2 else 0 := by
        by_cases h : vcom.getD e.1 0 = d
        · rw [if_pos h]; exact le_of_lt (hpos e (List.mem_cons_self e E'))
        · rw [if_neg h]
      exact ne_of_gt (add_pos_of_nonneg_of_pos h2 h1)
    have hin : vcom.getD e.1 0 ∈ vcs := by
      refine hcover (vcom.getD e.1 0) ?_
      rw [wsum_cons, if_pos rfl]
      exact ne_of_gt (add_pos_of_pos_of_nonneg (hpos e (List.mem_cons_self e E'))
        (hnn' _))
    rw [List.map_congr_left (fun d _ => wsum_cons vcom e E' d),
      sum_map_add_distrib (fun d => if vcom.getD e.1 0 = d then e.2 else 0)
        (fun d => wsum vcom E' d) vcs,
      sum_map_ite_mem e.2 (vcom.getD e.1 0) vcs hnd, if_pos hin,
      ih vcs hnd hpos' hcover', List.map_cons, List.sum_cons]

/-- Clearing preserves the accumulator length. -/
theorem clearScan_length (vcs : List Nat) :
    ∀ (vcout : List W), (louvainClearScanW vcs vcout).2.length = vcout.length := by
  unfold louvainClearScanW
  induction vcs with
  | nil => intro vcout; rfl
  | cons c rest ih =>
    intro vcout
    rw [List.foldl_cons, ih]
    simp

/-- Bucket edge list of community `c`: the concatenation of the out-edge
lists of the vertices in `c`'s CSR slice. -/
def bucketEdges (x : EGraph) (coff cedg : List Nat) (c : Nat) : List (Nat × W) :=
  ((csrSlice coff cedg c).map (fun u => x.edges u)).flatten

/-- Invariant of the `louvainAggregateEdgesW` fold over the first `k`
communities: the accumulated rows report exactly the bucket totals, and the
threaded scratch stays well-formed. -/
theorem aggregateFold_spec (x : EGraph) (vcom coff cedg : List Nat) (L : Nat)
    (hedge : ∀ c u, u ∈ csrSlice coff cedg c →
      ∀ e ∈ x.edges u, 0 < e.2 ∧ vcom.getD e.1 0 < L) :
    ∀ (k : Nat) (s : List Nat × List W), scanInv s.1 s.2 → s.2.length = L →
      ((List.range k).foldl
        (fun (acc : List (List (Nat × W)) × List Nat × List W) c =>
          if (csrSlice coff cedg c).length = 0 then (acc.1 ++ [[]], acc.2.1, acc.2.2)
          else
            (acc.1 ++ [((csrSlice coff cedg c).foldl
                (fun p u => louvainScanCommunitiesW true p.1 p.2 x u vcom)
                (louvainClearScanW acc.2.1 acc.2.2)).1.map
              (fun d => (d, ((csrSlice coff cedg c).foldl
                (fun p u => louvainScanCommunitiesW true p.1 p.2 x u vcom)
                (louvainClearScanW acc.2.1 acc.2.2)).2.getD d 0))],
              ((csrSlice coff cedg c).foldl
                (fun p u => louvainScanCommunitiesW true p.1 p.2 x u vcom)
                (louvainClearScanW acc.2.1 acc.2.2)).1,
              ((csrSlice coff cedg c).foldl
                (fun p u => louvainScanCommunitiesW true p.1 p.2 x u vcom)
                (louvainClearScanW acc.2.1 acc.2.2)).2))
        ([], s.1, s.2)).1.length = k ∧
      scanInv ((List.range k).foldl
        (fun (acc : List (List (Nat × W)) × List Nat × List W) c =>
          if (csrSlice coff cedg c).length = 0 then (acc.1 ++ [[]], acc.2.1, acc.2.2)
          else
            (acc.1 ++ [((csrSlice coff cedg c).foldl
                (fun p u => louvainScanCommunitiesW true p.1 p.2 x u vcom)
                (louvainClearScanW acc.2.1 acc.2.2)).1.map
              (fun d => (d, ((csrSlice coff cedg c).foldl
                (fun p u => louvainScanCommunitiesW true p.1 p.2 x u vcom)
                (louvainClearScanW acc.2.1 acc.2.2)).2.getD d 0))],
              ((csrSlice coff cedg c).foldl
                (fun p u => louvainScanCommunitiesW true p.1 p.2 x u vcom)
                (louvainClearScanW acc.2.1 acc.2.2)).1,
              ((csrSlice coff cedg c).foldl
                (fun p u => louvainScanCommunitiesW true p.1 p.2 x u vcom)
                (louvainClearScanW acc.2.1 acc.2.2)).2))
        ([], s.1, s.2)).2.1 ((List.range k).foldl
        (fun (acc : List (List (Nat × W)) × List Nat × List W) c =>
          if (csrSlice coff cedg c).length = 0 then (acc.1 ++ [[]], acc.2.1, acc.2.2)
          else
            (acc.1 ++ [((csrSlice coff cedg c).foldl
                (fun p u => louvainScanCommunitiesW true p.1 p.2 x u vcom)
                (louvainClearScanW acc.2.1 acc.2.2)).1.map
              (fun d => (d, ((csrSlice coff cedg c).foldl
                (fun p u => louvainScanCommunitiesW true p.1 p.2 x u vcom)
                (louvainClearScanW acc.2.1 acc.2.2)).2.getD d 0))],
              ((csrSlice coff cedg c).foldl
                (fun p u => louvainScanCommunitiesW true p.1 p.2 x u vcom)
                (louvainClearScanW acc.2.1 acc.2.2)).1,
              ((csrSlice coff cedg c).foldl
                (fun p u => louvainScanCommunitiesW true p.1 p.2 x u vcom)
                (louvainClearScanW acc.2.1 acc.2.2)).2))
        ([], s.1, s.2)).2.2 ∧
      ((List.range k).foldl
        (fun (acc : List (List (Nat × W)) × List Nat × List W) c =>
          if (csrSlice coff cedg c).length = 0 then (acc.1 ++ [[]], acc.2.1, acc.2.2)
          else
            (acc.1 ++ [((csrSlice coff cedg c).foldl
                (fun p u => louvainScanCommunitiesW true p.1 p.2 x u vcom)
                (louvainClearScanW acc.2.1 acc.2.2)).1.map
              (fun d => (d, ((csrSlice coff cedg c).foldl
                (fun p u => louvainScanCommunitiesW true p.1 p.2 x u vcom)
                (louvainClearScanW acc.2.1 acc.2.2)).2.getD d 0))],
              ((csrSlice coff cedg c).foldl
                (fun p u => louvainScanCommunitiesW true p.1 p.2 x u vcom)
                (louvainClearScanW acc.2.1 acc.2.2)).1,
              ((csrSlice coff cedg c).foldl
                (fun p u => louvainScanCommunitiesW true p.1 p.2 x u vcom)
                (louvainClearScanW acc.2.1 acc.2.2)).2))
        ([], s.1, s.2)).2.2.length = L ∧
      (∀ c, c < k → (∀ d, rowWeightTo (((List.range k).foldl
        (fun (acc : List (List (Nat × W)) × List Nat × List W) c =>
          if (csrSlice coff cedg c).length = 0 then (acc.1 ++ [[]], acc.2.1, acc.2.2)
          else
            (acc.1 ++ [((csrSlice coff cedg c).foldl
                (fun p u => louvainScanCommunitiesW true p.1 p.2 x u vcom)
                (louvainClearScanW acc.2.1 acc.2.2)).1.map
              (fun d => (d, ((csrSlice coff cedg c).foldl
                (fun p u => louvainScanCommunitiesW true p.1 p.2 x u vcom)
                (louvainClearScanW acc.2.1 acc.2.2)).2.getD d 0))],
              ((csrSlice coff cedg c).foldl
                (fun p u => louvainScanCommunitiesW true p.1 p.2 x u vcom)
                (louvainClearScanW acc.2.1 acc.2.2)).1,
              ((csrSlice coff cedg c).foldl
                (fun p u => louvainScanCommunitiesW true p.1 p.2 x u vcom)
                (louvainClearScanW acc.2.1 acc.2.2)).2))
        ([], s.1, s.2)).1.getD c []) d = wsum vcom (bucketEdges x coff cedg c) d) ∧
        ((((List.range k).foldl
        (fun (acc : List (List (Nat × W)) × List Nat × List W) c =>
          if (csrSlice coff cedg c).length = 0 then (acc.1 ++ [[]], acc.2.1, acc.2.2)
          else
            (acc.1 ++ [((csrSlice coff cedg c).foldl
                (fun p u => louvainScanCommunitiesW true p.1 p.2 x u vcom)
                (louvainClearScanW acc.2.1 acc.2.2)).1.map
              (fun d => (d, ((csrSlice coff cedg c).foldl
                (fun p u => louvainScanCommunitiesW true p.1 p.2 x u vcom)
                (louvainClearScanW acc.2.1 acc.2.2)).2.getD d 0))],
              ((csrSlice coff cedg c).foldl
                (fun p u => louvainScanCommunitiesW true p.1 p.2 x u vcom)
                (louvainClearScanW acc.2.1 acc.2.2)).1,
              ((csrSlice coff cedg c).foldl
                (fun p u => louvainScanCommunitiesW true p.1 p.2 x u vcom)
                (louvainClearScanW acc.2.1 acc.2.2)).2))
        ([], s.1, s.2)).1.getD c []).map (fun e => e.2)).sum =
          ((bucketEdges x coff cedg c).map (fun e => e.2)).sum) := by
  intro k
  induction k with
  | zero =>
    intro s hs hslen
    exact ⟨rfl, hs, hslen, fun c hc => absurd hc (Nat.not_lt_zero c)⟩
  | succ k ih =>
    intro s hs hslen
    obtain ⟨ihlen, ihinv, ihL, ihrows⟩ := ih s hs hslen
    rw [List.range_succ, List.foldl_append, List.foldl_cons, List.foldl_nil]
    set acc := (List.range k).foldl
        (fun (acc : List (List (Nat × W)) × List Nat × List W) c =>
          if (csrSlice coff cedg c).length = 0 then (acc.1 ++ [[]], acc.2.1, acc.2.2)
          else
            (acc.1 ++ [((csrSlice coff cedg c).foldl
                (fun p u => louvainScanCommunitiesW true p.1 p.2 x u vcom)
                (louvainClearScanW acc.2.1 acc.2.2)).1.map
              (fun d => (d, ((csrSlice coff cedg c).foldl
                (fun p u => louvainScanCommunitiesW true p.1 p.2 x u vcom)
                (louvainClearScanW acc.2.1 acc.2.2)).2.getD d 0))],
              ((csrSlice coff cedg c).foldl
                (fun p u => louvainScanCommunitiesW true p.1 p.2 x u vcom)
                (louvainClearScanW acc.2.1 acc.2.2)).1,
              ((csrSlice coff cedg c).foldl
                (fun p u => louvainScanCommunitiesW true p.1 p.2 x u vcom)
                (louvainClearScanW acc.2.1 acc.2.2)).2))
        ([], s.1, s.2) with hacc
    by_cases hemp : (csrSlice coff cedg k).length = 0
    · rw [if_pos hemp]
      have hmemb : csrSlice coff cedg k = [] := List.length_eq_zero.mp hemp
      have hbk : bucketEdges x coff cedg k = [] := by
        unfold bucketEdges
        rw [hmemb]
        rfl
      refine ⟨by simp [ihlen], ihinv, ihL, fun c hc => ?_⟩
      rcases Nat.lt_or_ge c k with hck | hck
      · have hgl : (acc.1 ++ [[]]).getD c [] = acc.1.getD c [] :=
          getD_append_left _ _ _ c (by rw [ihlen]; exact hck)
        rw [hgl]
        exact ihrows c hck
      · obtain rfl : c = k := by omega
        have hgl : (acc.1 ++ [([] : List (Nat × W))]).getD c [] = [] := by
          have := getD_append_self acc.1 ([] : List (Nat × W)) []
          rw [ihlen] at this
          exact this
        rw [hgl, hbk]
        exact ⟨fun d => by rw [rowWeightTo_nil, wsum_nil], by simp⟩
    · rw [if_neg hemp]
      have hclr := clearScan_zero acc.2.1 acc.2.2 ihinv
      have hclen : (louvainClearScanW acc.2.1 acc.2.2).2.length = L := by
        rw [clearScan_length, ihL]
      have hfst : (louvainClearScanW acc.2.1 acc.2.2).1 = [] := rfl
      have hjoin := scan_members_join x vcom (csrSlice coff cedg k)
        (louvainClearScanW acc.2.1 acc.2.2)
      have hEdge : ∀ e ∈ bucketEdges x coff cedg k, 0 < e.2 ∧ vcom.getD e.1 0 < L := by
        intro e he
        unfold bucketEdges at he
        obtain ⟨l, hl, hel⟩ := List.mem_flatten.mp he
        obtain ⟨u, hu, rfl⟩ := List.mem_map.mp hl
        exact hedge k u hu e hel
      have hspec := scanStep_foldl_spec vcom L (louvainClearScanW acc.2.1 acc.2.2).2
        hclen hclr (bucketEdges x coff cedg k) hEdge
      have hs2 : (csrSlice coff cedg k).foldl
          (fun p u => louvainScanCommunitiesW true p.1 p.2 x u vcom)
          (louvainClearScanW acc.2.1 acc.2.2) =
          (bucketEdges x coff cedg k).foldl (scanStep vcom)
            ([], (louvainClearScanW acc.2.1 acc.2.2).2) := by
        rw [hjoin]
        rfl
      obtain ⟨sp1, sp2, sp3, sp4⟩ := hspec
      rw [hs2]
      set st2 := (bucketEdges x coff cedg k).foldl (scanStep vcom)
        ([], (louvainClearScanW acc.2.1 acc.2.2).2) with hst2
      refine ⟨by simp [ihlen], ?_, sp1, fun c hc => ?_⟩
      · intro d hd
        rw [sp2 d] at hd
        exact (sp4 d).mpr hd
      rcases Nat.lt_or_ge c k with hck | hck
      · have hgl : (acc.1 ++ [st2.1.map (fun d => (d, st2.2.getD d 0))]).getD c [] =
            acc.1.getD c [] :=
          getD_append_left _ _ _ c (by rw [ihlen]; exact hck)
        rw [hgl]
        exact ihrows c hck
      · obtain rfl : c = k := by omega
        have hgl : (acc.1 ++ [st2.1.map (fun d => (d, st2.2.getD d 0))]).getD c [] =
            st2.1.map (fun d => (d, st2.2.getD d 0)) := by
          have := getD_append_self acc.1 (st2.1.map (fun d => (d, st2.2.getD d 0))) []
          rw [ihlen] at this
          exact this
        rw [hgl]
        constructor
        · intro d
          rw [rowWeightTo_map (fun d => st2.2.getD d 0) d st2.1 sp3]
          by_cases hdm : d ∈ st2.1
          · rw [if_pos hdm, sp2 d]
          · rw [if_neg hdm]
            by_contra hne
            exact hdm ((sp4 d).mpr (Ne.symm hne))
        · rw [List.map_map]
          have hmm : ((fun e : Nat × W => e.2) ∘ (fun d => (d, st2.2.getD d 0))) =
              (fun d => st2.2.getD d 0) := rfl
          rw [hmm, List.map_congr_left (fun d _ => sp2 d)]
          exact sum_map_wsum vcom (bucketEdges x coff cedg c) st2.1 sp3
            (fun e he => (hEdge e he).1) (fun d hd => (sp4 d).mpr hd)

/-- Exact inter-community weight of the claim: the sum of the weights of the
edges from community `c`'s vertices into community `d`. -/
def crossW (x : EGraph) (vcom : List Nat) (c d : Nat) : W :=
  (((List.range x.span).filter (fun u => vcom.getD u 0 = c)).map
    (fun u => wsum vcom (x.edges u) d)).sum

/-- Internal weight of community `c`: half the total weight of the ordered
non-self edges inside `c`. -/
def louvainInternalW (x : EGraph) (vcom : List Nat) (c : Nat) : W :=
  ((((List.range x.span).filter (fun u => vcom.getD u 0 = c)).map
    (fun u => (((x.edges u).filter
      (fun e => vcom.getD e.1 0 = c ∧ e.1 ≠ u)).map (fun e => e.2)).sum)).sum) / 2

/-- Total original self-loop weight inside community `c`. -/
def louvainSelfLoopW (x : EGraph) (vcom : List Nat) (c : Nat) : W :=
  (((List.range x.span).filter (fun u => vcom.getD u 0 = c)).map
    (fun u => (((x.edges u).filter (fun e => e.1 = u)).map (fun e => e.2)).sum)).sum

theorem sum_map_range_eq (f : Nat → W) :
    ∀ n, ((List.range n).map f).sum = ∑ u ∈ Finset.range n, f u := by
  intro n
  induction n with
  | zero => simp
  | succ n ih =>
    rw [List.range_succ, List.map_append, List.sum_append, Finset.sum_range_succ, ih]
    simp

theorem sum_map_filter_range_eq (p : Nat → Prop) [DecidablePred p] (f : Nat → W) :
    ∀ n, (((List.range n).filter (fun u => decide (p u))).map f).sum =
      ∑ u ∈ (Finset.range n).filter p, f u := by
  intro n
  induction n with
  | zero => simp
  | succ n ih =>
    rw [List.range_succ, List.filter_append, List.map_append, List.sum_append,
      Finset.range_succ, Finset.filter_insert]
    by_cases hp : p n
    · rw [if_pos hp, Finset.sum_insert (by simp), ih]
      simp [hp]
      ring
    · rw [if_neg hp, ih]
      simp [hp]

theorem sum_map_flatten (f : Nat × W → W) :
    ∀ (Ls : List (List (Nat × W))),
      ((Ls.flatten).map f).sum = (Ls.map (fun l => (l.map f).sum)).sum := by
  intro Ls
  induction Ls with
  | nil => rfl
  | cons l rest ih =>
    rw [List.flatten_cons, List.map_append, List.sum_append, List.map_cons,
      List.sum_cons, ih]

theorem wsum_flatten (vcom : List Nat) (d : Nat) :
    ∀ (Ls : List (List (Nat × W))),
      wsum vcom Ls.flatten d = (Ls.map (fun l => wsum vcom l d)).sum := by
  intro Ls
  induction Ls with
  | nil => rfl
  | cons l rest ih =>
    rw [List.flatten_cons, wsum_append, List.map_cons, List.sum_cons, ih]

/-- Splitting the weight into community `c` by whether the edge is `u`'s
self-loop. -/
theorem wsum_split_self (vcom : List Nat) (c u : Nat) :
    ∀ (E : List (Nat × W)),
      wsum vcom E c =
        ((E.filter (fun e => vcom.getD e.1 0 = c ∧ e.1 ≠ u)).map (fun e => e.2)).sum +
        ((E.filter (fun e => vcom.getD e.1 0 = c ∧ e.1 = u)).map (fun e => e.2)).sum := by
  intro E
  induction E with
  | nil => simp [wsum_nil]
  | cons e t ih =>
    rw [wsum_cons, ih, List.filter_cons, List.filter_cons]
    by_cases h1 : vcom.getD e.1 0 = c
    · by_cases h2 : e.1 = u
      · rw [if_pos h1, if_neg (fun h => (of_decide_eq_true h).2 h2),
          if_pos (decide_eq_true (⟨h1, h2⟩ : vcom.getD e.1 0 = c ∧ e.1 = u)),
          List.map_cons, List.sum_cons]
        ring
      · rw [if_pos h1, if_pos (decide_eq_true (⟨h1, h2⟩ : vcom.getD e.1 0 = c ∧ e.1 ≠ u)),
          if_neg (fun h => h2 (of_decide_eq_true h).2),
          List.map_cons, List.sum_cons]
        ring
    · rw [if_neg h1, if_neg (fun h => h1 (of_decide_eq_true h).1),
        if_neg (fun h => h1 (of_decide_eq_true h).1), zero_add]

/-- Inside community `c`, an edge of `u ∈ c` is a self-loop exactly when its
target is `u`. -/
theorem filter_self_eq (vcom : List Nat) (c u : Nat) (hc : vcom.getD u 0 = c)
    (E : List (Nat × W)) :
    E.filter (fun e => vcom.getD e.1 0 = c ∧ e.1 = u) =
      E.filter (fun e => e.1 = u) := by
  refine List.filter_congr (fun e _ => ?_)
  by_cases h : e.1 = u
  · rw [decide_eq_true h, decide_eq_true (⟨by rw [h, hc], h⟩ :
      vcom.getD e.1 0 = c ∧ e.1 = u)]
  · rw [decide_eq_false h, decide_eq_false (fun hh => h hh.2)]

/-- The scatter fold of `louvainCommunityVerticesW` never touches the offset
array. -/
theorem scatterFst (vcom : List Nat) :
    ∀ (l : List Nat) (p : List Nat × List Nat × List Nat),
      (l.foldl
        (fun (p : List Nat × List Nat × List Nat) u =>
          (p.1, p.2.1.set (vcom.getD u 0) (p.2.1.getD (vcom.getD u 0) 0 + 1),
            p.2.2.set (p.1.getD (vcom.getD u 0) 0 + p.2.1.getD (vcom.getD u 0) 0) u))
        p).1 = p.1 := by
  intro l
  induction l with
  | nil => intro p; rfl
  | cons a t ih => intro p; exact ih _

theorem communityVertices_fst (C : Nat) (x : EGraph) (vcom : List Nat) :
    (louvainCommunityVerticesW C x vcom).1 =
      (exclusiveScanW (louvainCountCommunityVerticesW C x vcom)).1.set C
        (exclusiveScanW (louvainCountCommunityVerticesW C x vcom)).2 :=
  scatterFst vcom (List.range x.span) _

theorem countCommunityVertices_length (C : Nat) (x : EGraph) (vcom : List Nat) :
    (louvainCountCommunityVerticesW C x vcom).length = C + 1 := by
  have h : ∀ (l : List Nat) (a : List Nat),
      (l.foldl (fun a u =>
        a.set (vcom.getD u 0) (a.getD (vcom.getD u 0) 0 + 1)) a).length =
        a.length := by
    intro l
    induction l with
    | nil => intro a; rfl
    | cons b t ih => intro a; rw [List.foldl_cons, ih, List.length_set]
  exact (h (List.range x.span) _).trans (List.length_replicate _ _)

theorem communityVertices_coff_length (C : Nat) (x : EGraph) (vcom : List Nat) :
    (louvainCommunityVerticesW C x vcom).1.length = C + 1 := by
  rw [communityVertices_fst, List.length_set, exclusiveScanW_eq]
  exact (scanAux_length _ 0).trans (countCommunityVertices_length C x vcom)

/-- Slices at indices at or past `C` are empty, because the offset array has
length `C + 1`. -/
theorem csrSlice_high_empty (C : Nat) (x : EGraph) (vcom : List Nat) (c : Nat)
    (hc : C ≤ c) :
    csrSlice (louvainCommunityVerticesW C x vcom).1
      (louvainCommunityVerticesW C x vcom).2.2 c = [] := by
  unfold csrSlice
  rw [getD_oob _ (c + 1) _ (by rw [communityVertices_coff_length]; omega),
    Nat.zero_sub, List.take_zero]

/-- C5: for a symmetric graph with strictly positive edge weights and
community labels in `[0, C)`, the aggregated graph built by
`louvainAggregateW` over the community CSR preserves the total edge weight,
each of its inter-community weights is the exact sum of the underlying edge
weights, and its self-loop weight at `c` equals twice the internal weight of
`c` plus the original self-loop weight of `c`. -/
theorem louvainAggregateW_exact_sums (C : Nat) (x : EGraph) (vcom : List Nat)
    (_hsym : x.symmetricW)
    (hedges : ∀ u, u < x.span → ∀ e ∈ x.edges u, e.1 < x.span ∧ 0 < e.2)
    (hb : ∀ u, u < x.span → vcom.getD u 0 < C)
    (hC : C ≤ x.span) :
    edgeWeight (louvainAggregateW C x vcom
        (louvainCommunityVerticesW C x vcom).1
        (louvainCommunityVerticesW C x vcom).2.2 []
        (List.replicate x.span 0)).1 = edgeWeight x ∧
    (∀ c, c < C → ∀ d,
      rowWeightTo ((louvainAggregateW C x vcom
        (louvainCommunityVerticesW C x vcom).1
        (louvainCommunityVerticesW C x vcom).2.2 []
        (List.replicate x.span 0)).1.edges c) d = crossW x vcom c d) ∧
    (∀ c, c < C →
      rowWeightTo ((louvainAggregateW C x vcom
        (louvainCommunityVerticesW C x vcom).1
        (louvainCommunityVerticesW C x vcom).2.2 []
        (List.replicate x.span 0)).1.edges c) c =
        2 * louvainInternalW x vcom c + louvainSelfLoopW x vcom c) := by
  obtain ⟨hcoffC, hslices, hmem⟩ := louvainCommunityVerticesW_slices C x vcom hb
  have hedge : ∀ c u, u ∈ csrSlice (louvainCommunityVerticesW C x vcom).1
      (louvainCommunityVerticesW C x vcom).2.2 c →
      ∀ e ∈ x.edges u, 0 < e.2 ∧ vcom.getD e.1 0 < x.span := by
    intro c u hu e he
    rcases Nat.lt_or_ge c C with hclt | hcge
    · rw [hslices c hclt] at hu
      have hux : u < x.span := List.mem_range.mp (List.mem_filter.mp hu).1
      obtain ⟨he1, he2⟩ := hedges u hux e he
      exact ⟨he2, Nat.lt_of_lt_of_le (hb e.1 he1) hC⟩
    · rw [csrSlice_high_empty C x vcom c hcge] at hu
      exact absurd hu (List.not_mem_nil u)
  have hinv : scanInv ([] : List Nat) (List.replicate x.span (0 : W)) :=
    fun c hcne => absurd (getD_replicate x.span c 0) hcne
  obtain ⟨hlen, hscan, hL, hrows⟩ := aggregateFold_spec x vcom
    (louvainCommunityVerticesW C x vcom).1
    (louvainCommunityVerticesW C x vcom).2.2 x.span hedge C
    ⟨[], List.replicate x.span 0⟩ hinv (List.length_replicate _ _)
  have hlen' : (louvainAggregateW C x vcom
      (louvainCommunityVerticesW C x vcom).1
      (louvainCommunityVerticesW C x vcom).2.2 []
      (List.replicate x.span 0)).1.adj.length = C := hlen
  have hrow' : ∀ c, c < C → ∀ d,
      rowWeightTo ((louvainAggregateW C x vcom
        (louvainCommunityVerticesW C x vcom).1
        (louvainCommunityVerticesW C x vcom).2.2 []
        (List.replicate x.span 0)).1.edges c) d =
        wsum vcom (bucketEdges x (louvainCommunityVerticesW C x vcom).1
          (louvainCommunityVerticesW C x vcom).2.2 c) d :=
    fun c hc d => (hrows c hc).1 d
  have htot' : ∀ c, c < C →
      (((louvainAggregateW C x vcom
        (louvainCommunityVerticesW C x vcom).1
        (louvainCommunityVerticesW C x vcom).2.2 []
        (List.replicate x.span 0)).1.edges c).map (fun e => e.2)).sum =
        ((bucketEdges x (louvainCommunityVerticesW C x vcom).1
          (louvainCommunityVerticesW C x vcom).2.2 c).map (fun e => e.2)).sum :=
    fun c hc => (hrows c hc).2
  have hbt : ∀ c, c < C →
      ((bucketEdges x (louvainCommunityVerticesW C x vcom).1
        (louvainCommunityVerticesW C x vcom).2.2 c).map (fun e => e.2)).sum =
        ∑ u ∈ (Finset.range x.span).filter (fun u => vcom.getD u 0 = c),
          ((x.edges u).map (fun e => e.2)).sum := by
    intro c hc
    unfold bucketEdges
    rw [hslices c hc, sum_map_flatten, List.map_map]
    exact sum_map_filter_range_eq (fun u => vcom.getD u 0 = c)
      (fun u => ((x.edges u).map (fun e => e.2)).sum) x.span
  have hcross : ∀ c, c < C → ∀ d,
      wsum vcom (bucketEdges x (louvainCommunityVerticesW C x vcom).1
        (louvainCommunityVerticesW C x vcom).2.2 c) d = crossW x vcom c d := by
    intro c hc d
    unfold bucketEdges crossW
    rw [hslices c hc, wsum_flatten, List.map_map]
    rfl
  have hself : ∀ c, c < C →
      crossW x vcom c c =
        2 * louvainInternalW x vcom c + louvainSelfLoopW x vcom c := by
    intro c _
    unfold crossW louvainInternalW louvainSelfLoopW
    have hpt : ∀ u ∈ (List.range x.span).filter (fun u => vcom.getD u 0 = c),
        wsum vcom (x.edges u) c =
          (((x.edges u).filter
            (fun e => vcom.getD e.1 0 = c ∧ e.1 ≠ u)).map (fun e => e.2)).sum +
          (((x.edges u).filter (fun e => e.1 = u)).map (fun e => e.2)).sum := by
      intro u hu
      have hcu : vcom.getD u 0 = c :=
        of_decide_eq_true (List.mem_filter.mp hu).2
      rw [wsum_split_self vcom c u (x.edges u), filter_self_eq vcom c u hcu]
    rw [List.map_congr_left hpt, sum_map_add_distrib]
    ring
  refine ⟨?_, fun c hc d => (hrow' c hc d).trans (hcross c hc d),
    fun c hc => ((hrow' c hc c).trans (hcross c hc c)).trans (hself c hc)⟩
  calc edgeWeight (louvainAggregateW C x vcom
        (louvainCommunityVerticesW C x vcom).1
        (louvainCommunityVerticesW C x vcom).2.2 []
        (List.replicate x.span 0)).1
      = ∑ c ∈ Finset.range C, (((louvainAggregateW C x vcom
          (louvainCommunityVerticesW C x vcom).1
          (louvainCommunityVerticesW C x vcom).2.2 []
          (List.replicate x.span 0)).1.edges c).map (fun p => p.2)).sum := by
        unfold edgeWeight
        rw [show ((louvainAggregateW C x vcom
          (louvainCommunityVerticesW C x vcom).1
          (louvainCommunityVerticesW C x vcom).2.2 []
          (List.replicate x.span 0)).1).span = C from hlen', sum_map_range_eq]
    _ = ∑ c ∈ Finset.range C,
          ∑ u ∈ (Finset.range x.span).filter (fun u => vcom.getD u 0 = c),
            ((x.edges u).map (fun e => e.2)).sum :=
        Finset.sum_congr rfl (fun c hcm =>
          (htot' c (Finset.mem_range.mp hcm)).trans
            (hbt c (Finset.mem_range.mp hcm)))
    _ = ∑ u ∈ Finset.range x.span, ((x.edges u).map (fun e => e.2)).sum :=
        Finset.sum_fiberwise_of_maps_to
          (fun u hu => Finset.mem_range.mpr (hb u (Finset.mem_range.mp hu))) _
    _ = edgeWeight x :=
        (sum_map_range_eq (fun u => ((x.edges u).map (fun p => p.2)).sum)
          x.span).symm

/-- A symmetric graph with a zero-weight edge between vertices 0 and 1 and a
unit-weight edge between vertices 0 and 2. -/
def zgC5 : EGraph := ⟨[[(1, 0), (2, 1)], [(0, 0)], [(0, 1)]]⟩

/-- C5 counterexample: on a symmetric graph with a zero-weight edge, the
scan marks community 0 twice (the `if (!vcout[c])` membership test reads 0
both times), the aggregated row duplicates the entry, and the total edge
weight is not preserved: 4 instead of 2. -/
theorem louvainAggregateW_zero_weight_breaks :
    zgC5.symmetricW ∧
    (∀ u, u < zgC5.span → [0, 0, 0].getD u 0 < 1) ∧
    (1 ≤ zgC5.span) ∧
    edgeWeight (louvainAggregateW 1 zgC5 [0, 0, 0]
      (louvainCommunityVerticesW 1 zgC5 [0, 0, 0]).1
      (louvainCommunityVerticesW 1 zgC5 [0, 0, 0]).2.2 []
      (List.replicate zgC5.span 0)).1 ≠ edgeWeight zgC5 := by
  unfold EGraph.symmetricW
  with_unfolding_all decide

theorem louvainAggregateW_exact_sums_witness :
    exK2.symmetricW ∧
    (∀ u, u < exK2.span → ∀ e ∈ exK2.edges u, e.1 < exK2.span ∧ 0 < e.2) ∧
    (∀ u, u < exK2.span → [0, 1].getD u 0 < 2) ∧
    2 ≤ exK2.span ∧
    edgeWeight (louvainAggregateW 2 exK2 [0, 1]
      (louvainCommunityVerticesW 2 exK2 [0, 1]).1
      (louvainCommunityVerticesW 2 exK2 [0, 1]).2.2 []
      (List.replicate exK2.span 0)).1 = edgeWeight exK2 :=
  ⟨by unfold EGraph.symmetricW; with_unfolding_all decide,
   by with_unfolding_all decide,
   by with_unfolding_all decide, by with_unfolding_all decide,
   (louvainAggregateW_exact_sums 2 exK2 [0, 1]
     (by unfold EGraph.symmetricW; with_unfolding_all decide)
     (by with_unfolding_all decide)
     (by with_unfolding_all decide) (by with_unfolding_all decide)).1⟩
